import Mathlib

set_option linter.unusedVariables false
set_option maxRecDepth 8000

/-!
Shallow embedding of `src/sh1107_driver.py` (class `SH1107`): the shape
rasterization algorithms (`circle`, `ellipse`, `triangle`), the logical to
physical buffer rotation (`_rotate_buffer`), and the paged transfer protocol
(`write_cmd`, `write_data`, `show`, `init_display`), together with proofs of
the specification's claims about them.

Machine integers are modelled by `Int`/`Nat` (MicroPython integers are
unbounded, and byte values stay below 256 throughout).  The external pixel
primitive surface (`framebuf.FrameBuffer`) and the I2C bus are modelled from
the specification's interface contracts, as noted on each such definition.
-/

namespace SH1107

/-- A list of pixels approximating the segment from `(x0, y0)` to
`(x1, y1)`.  Modelled from the spec: `framebuf.line` is an external
primitive ("Triangle outline — three line segments connecting the three
given vertices"); its exact pixel choice is unspecified, so a standard
integer DDA stands in for it; only clipping and in-place updates matter
for the claims proved here. -/
def linePts (x0 y0 x1 y1 : Int) : List (Int × Int) :=
  let steps := max (x1 - x0).natAbs (y1 - y0).natAbs
  (List.range (steps + 1)).map fun i =>
    (x0 + Int.fdiv ((x1 - x0) * i) steps, y0 + Int.fdiv ((y1 - y0) * i) steps)

/-- One drawing command issued by a shape rasterizer to the pixel primitive
surface: a single pixel write (`framebuf.pixel`), a horizontal line
(`framebuf.hline`) of a given length, or a line segment (`framebuf.line`).
-/
inductive Cmd where
  | px (x y : Int) (c : Nat)
  | hl (x y len : Int) (c : Nat)
  | ln (x0 y0 x1 y1 : Int) (c : Nat)
  deriving DecidableEq, Repr

/-- Whether a pixel position is touched by a command: `hl x y len c` covers
the positions `(x + i, y)` for `0 ≤ i < len`, matching the contract of the
primitive surface's `hline`. -/
def Cmd.coversB : Cmd → Int × Int → Bool
  | .px x y _, p => p.1 = x && p.2 = y
  | .hl x y len _, p => p.2 = y && x ≤ p.1 && p.1 < x + len
  | .ln x0 y0 x1 y1 _, p => decide (p ∈ linePts x0 y0 x1 y1)

/-- The set of pixel positions plotted by a list of drawing commands. -/
def plottedBy (cmds : List Cmd) (p : Int × Int) : Prop :=
  ∃ cmd ∈ cmds, cmd.coversB p = true

instance (cmds : List Cmd) (p : Int × Int) : Decidable (plottedBy cmds p) :=
  List.decidableBEx _ cmds

/-- One iteration of the outline-circle loop body of `SH1107.circle` with
`f=False` (state `(x, y, err)`): if `err <= 0` then `y += 1; err += 2*y + 1`,
then if `err > 0` (the updated `err`) then `x -= 1; err -= 2*x + 1`. -/
def circleOutlineStepA (y err : Int) : Int × Int :=
  if err ≤ 0 then (y + 1, err + (2 * (y + 1) + 1)) else (y, err)

def circleOutlineStepB (x err : Int) : Int × Int :=
  if err > 0 then (x - 1, err - (2 * (x - 1) + 1)) else (x, err)

/-- One iteration of the outline-circle loop body, combining the two
conditional updates (first on `y`/`err`, then on `x`/`err`). -/
def circleOutlineStep (s : Int × Int × Int) : Int × Int × Int :=
  ((circleOutlineStepB s.1 (circleOutlineStepA s.2.1 s.2.2).2).1,
   (circleOutlineStepA s.2.1 s.2.2).1,
   (circleOutlineStepB s.1 (circleOutlineStepA s.2.1 s.2.2).2).2)

theorem circleOutlineStep_sub_lt (x y err : Int) :
    (circleOutlineStep (x, y, err)).1 - (circleOutlineStep (x, y, err)).2.1
      < x - y := by
  simp only [circleOutlineStep, circleOutlineStepA, circleOutlineStepB]
  split_ifs <;> simp <;> omega

/-- The list of loop-head states `(x, y)` of the outline-circle loop,
starting from a given state; the loop runs while `x >= y` and plots the
eight symmetric points at each head. -/
def circleOutlineHeads (x y err : Int) : List (Int × Int) :=
  if h : y ≤ x then
    (x, y) :: circleOutlineHeads (circleOutlineStep (x, y, err)).1
      (circleOutlineStep (x, y, err)).2.1 (circleOutlineStep (x, y, err)).2.2
  else []
termination_by (x + 1 - y).toNat
decreasing_by
  have hd := circleOutlineStep_sub_lt x y err
  omega

/-- One iteration of the filled-circle loop body of `SH1107.circle` with
`f=True` (state `(x, y, err)`): `err += 1 + 2*y; y += 1;` then if
`2*err > 2*x + 1` then `x -= 1; err += 1 - 2*x`. -/
def circleFillStep (s : Int × Int × Int) : Int × Int × Int :=
  let x := s.1
  let y := s.2.1
  let e1 := s.2.2 + (1 + 2 * y)
  if 2 * e1 > 2 * x + 1 then (x - 1, y + 1, e1 + (1 - 2 * (x - 1)))
  else (x, y + 1, e1)

theorem circleFillStep_snd (x y err : Int) :
    (circleFillStep (x, y, err)).2.1 = y + 1 := by
  simp only [circleFillStep]
  split <;> rfl

/-- The list of loop-head states `(x, y)` of the filled-circle loop for
radius `r`, starting from a given state; the loop runs while `y <= r` and
draws the spans of row `y` (half-width `x`) at each head. -/
def circleFillRows (r x y err : Int) : List (Int × Int) :=
  if h : y ≤ r then
    (x, y) :: circleFillRows r (circleFillStep (x, y, err)).1
      (circleFillStep (x, y, err)).2.1 (circleFillStep (x, y, err)).2.2
  else []
termination_by (r + 1 - y).toNat
decreasing_by
  have hd := circleFillStep_snd x y err
  omega

/-- The drawing commands issued by `SH1107.circle(x0, y0, r, c, f)`: for
`f=True`, per row `(x, y)` an `hline(x0 - x, y0 + y, 2*x + 1, c)` and, when
`y != 0`, an `hline(x0 - x, y0 - y, 2*x + 1, c)`; for `f=False`, the eight
symmetric `pixel` calls per loop head, in source order. -/
def circleCmds (x0 y0 r : Int) (c : Nat) (f : Bool) : List Cmd :=
  if f then
    (circleFillRows r r 0 0).flatMap fun s =>
      Cmd.hl (x0 - s.1) (y0 + s.2) (2 * s.1 + 1) c ::
        (if s.2 ≠ 0 then [Cmd.hl (x0 - s.1) (y0 - s.2) (2 * s.1 + 1) c] else [])
  else
    (circleOutlineHeads r 0 0).flatMap fun s =>
      [Cmd.px (x0 + s.1) (y0 + s.2) c, Cmd.px (x0 + s.2) (y0 + s.1) c,
       Cmd.px (x0 - s.2) (y0 + s.1) c, Cmd.px (x0 - s.1) (y0 + s.2) c,
       Cmd.px (x0 - s.1) (y0 - s.2) c, Cmd.px (x0 - s.2) (y0 - s.1) c,
       Cmd.px (x0 + s.2) (y0 - s.1) c, Cmd.px (x0 + s.1) (y0 - s.2) c]

/-- A bus/timing event: a successful I2C write transaction (`i2c.writeto`),
a microsecond sleep (`time.sleep_us`) or a millisecond sleep
(`time.sleep_ms`). -/
inductive Ev where
  | wr (addr : Nat) (data : List Nat)
  | slUs (n : Nat)
  | slMs (n : Nat)
  deriving DecidableEq, Repr

/-- Modelled from the spec: the physical bus transport is external ("issues
raw addressed writes, may fail with a transient error").  The fault schedule
`f` says whether the `n`-th `writeto` call of the run raises `OSError`; a
successful call records one bus transaction, a failing call records none.
All protocol functions return `(next call counter, events, success)`. -/
def writeto (f : Nat → Bool) (addr : Nat) (data : List Nat) (cnt : Nat) :
    Nat × List Ev × Bool :=
  if f cnt then (cnt + 1, [], false) else (cnt + 1, [.wr addr data], true)

/-- Sequencing with `OSError` propagation: run `a`; if it succeeds run `b`
from `a`'s counter, concatenating events; if `a` fails, stop with `a`'s
events. -/
def pfSeq (a b : Nat → Nat × List Ev × Bool) (cnt : Nat) :
    Nat × List Ev × Bool :=
  let ra := a cnt
  if ra.2.2 then
    let rb := b ra.1
    (rb.1, ra.2.1 ++ rb.2.1, rb.2.2)
  else (ra.1, ra.2.1, false)

/-- An always-successful action that only emits timing events, used for the
`time.sleep_us` / `time.sleep_ms` calls. -/
def emit (evs : List Ev) (cnt : Nat) : Nat × List Ev × Bool := (cnt, evs, true)

/-- `SH1107.write_cmd`: one transaction `[0x80, cmd]`. -/
def write_cmd (f : Nat → Bool) (addr cmd cnt : Nat) : Nat × List Ev × Bool :=
  writeto f addr [0x80, cmd] cnt

/-- A sequence of `write_cmd` calls, stopping at the first failure (an
uncaught `OSError` aborts the enclosing loop). -/
def cmdSeq (f : Nat → Bool) (addr : Nat) (cs : List Nat) (cnt : Nat) :
    Nat × List Ev × Bool :=
  match cs with
  | [] => (cnt, [], true)
  | v :: rest => pfSeq (write_cmd f addr v) (cmdSeq f addr rest) cnt

/-- `SH1107.write_data`: the payload is sent in chunks
`data[i:i+16]`, each as a transaction `0x40 :: chunk` followed by
`time.sleep_us(50)`; a failing chunk write raises before its sleep. -/
def write_data (f : Nat → Bool) (addr : Nat) (data : List Nat) (cnt : Nat) :
    Nat × List Ev × Bool :=
  if data = [] then (cnt, [], true)
  else
    pfSeq (fun c0 => writeto f addr (0x40 :: data.take 16) c0)
      (pfSeq (emit [.slUs 50]) (fun c1 => write_data f addr (data.drop 16) c1))
      cnt
termination_by data.length
decreasing_by
  rename_i h
  have : data.length ≠ 0 := fun hl => h (List.eq_nil_of_length_eq_zero hl)
  simp only [List.length_drop]
  omega

/-- The chunk decomposition performed by `write_data`'s loop
`for i in range(0, len(data), 16)`. -/
def chunks (l : List Nat) : List (List Nat) :=
  if l = [] then [] else l.take 16 :: chunks (l.drop 16)
termination_by l.length
decreasing_by
  rename_i h
  have : l.length ≠ 0 := fun hl => h (List.eq_nil_of_length_eq_zero hl)
  simp only [List.length_drop]
  omega

/-- `SH1107._rotate_buffer`, innermost conditional: if bit `b` of source
byte `(p, c)` is set, OR the bit for the rotated pixel into the physical
buffer (destination pixel `(dst_x, dst_y) = (p*8 + b, 127 - c)`, byte
`(dst_y // 8) * 64 + dst_x`, bit `dst_y % 8`). -/
def rotBit (buf phys : List Nat) (p c b : Nat) : List Nat :=
  if (buf.getD (p * 128 + c) 0).testBit b then
    phys.set ((127 - c) / 8 * 64 + (p * 8 + b))
      (phys.getD ((127 - c) / 8 * 64 + (p * 8 + b)) 0 |||
        1 <<< ((127 - c) % 8))
  else phys

/-- `SH1107._rotate_buffer`, per source byte: zero source bytes are skipped
entirely; otherwise each of the 8 bits is processed. -/
def rotByte (buf phys : List Nat) (p c : Nat) : List Nat :=
  if buf.getD (p * 128 + c) 0 ≠ 0 then
    (List.range 8).foldl (fun ph b => rotBit buf ph p c b) phys
  else phys

/-- `SH1107._rotate_buffer`: clear the physical buffer in place, then for
each source page `0 ≤ p < 8` and column `0 ≤ c < 128` transfer the set bits
of logical byte `(p, c)` to their rotated positions. -/
def rotateBuffer (buf phys : List Nat) : List Nat :=
  (List.range 8).foldl
    (fun ph p => (List.range 128).foldl (fun ph2 c => rotByte buf ph2 p c) ph)
    (phys.map fun _ => 0)

/-- The first attempt at one page of `SH1107.show` (the `try` body): page
address command `0xB0 | page`, column low `0x00 | 0`, column high
`0x10 | 0`, the 64-byte slice `buffer_to_send[page*64 : page*64+64]` via
`write_data`, then `time.sleep_us(100)`. -/
def pageAttempt (f : Nat → Bool) (addr : Nat) (buf : List Nat)
    (page cnt : Nat) : Nat × List Ev × Bool :=
  pfSeq (write_cmd f addr (0xB0 ||| page))
    (pfSeq (write_cmd f addr 0x00)
      (pfSeq (write_cmd f addr 0x10)
        (pfSeq (fun c0 => write_data f addr ((buf.drop (page * 64)).take 64) c0)
          (emit [.slUs 100])))) cnt

/-- The retry of one page of `SH1107.show` (the `except OSError` body after
the 10 ms sleep): the three address commands and the data write again, with
no trailing page delay. -/
def pageRetry (f : Nat → Bool) (addr : Nat) (buf : List Nat)
    (page cnt : Nat) : Nat × List Ev × Bool :=
  pfSeq (write_cmd f addr (0xB0 ||| page))
    (pfSeq (write_cmd f addr 0x00)
      (pfSeq (write_cmd f addr 0x10)
        (fun c0 => write_data f addr ((buf.drop (page * 64)).take 64) c0))) cnt

/-- One page of `SH1107.show`: the first attempt; on `OSError`,
`time.sleep_ms(10)` and exactly one retry, whose own failure propagates. -/
def showPage (f : Nat → Bool) (addr : Nat) (buf : List Nat)
    (page cnt : Nat) : Nat × List Ev × Bool :=
  let r := pageAttempt f addr buf page cnt
  if r.2.2 then r
  else
    let r2 := pageRetry f addr buf page r.1
    (r2.1, r.2.1 ++ .slMs 10 :: r2.2.1, r2.2.2)

/-- The page loop of `SH1107.show` over a list of page numbers. -/
def showPages (f : Nat → Bool) (addr : Nat) (buf : List Nat)
    (ps : List Nat) (cnt : Nat) : Nat × List Ev × Bool :=
  match ps with
  | [] => (cnt, [], true)
  | p :: rest => pfSeq (showPage f addr buf p) (showPages f addr buf rest) cnt

/-- `SH1107.show`: rotate into the physical buffer when in landscape
orientation, else send the logical buffer directly; then the 16 pages in
ascending order. -/
def showFrame (f : Nat → Bool) (addr : Nat) (rotate : Bool)
    (buffer phys : List Nat) (cnt : Nat) : Nat × List Ev × Bool :=
  showPages f addr (if rotate then rotateBuffer buffer phys else buffer)
    (List.range 16) cnt

/-- The 21 bytes sent by the command loop of `SH1107.init_display`, with the
constants of the source resolved (`_SET_DISP | 0x00 = 0xAE`, ...,
`_SET_DISP | 0x01 = 0xAF`). -/
def initCmds : List Nat :=
  [0xAE, 0xDC, 0x00, 0x81, 0x2F, 0x20, 0xA0, 0xC0, 0xA8, 0x7F, 0xD3, 0x60,
   0xD5, 0x51, 0xD9, 0x22, 0xDB, 0x35, 0xA4, 0xA6, 0xAF]

/-- `SH1107.init_display`: the 21 command writes in order, then `fill(0)`
(which clears the logical buffer; the primitive surface's `fill` is
external) and one `show`. -/
def initDisplay (f : Nat → Bool) (addr : Nat) (rotate : Bool)
    (buffer phys : List Nat) (cnt : Nat) : Nat × List Ev × Bool :=
  pfSeq (cmdSeq f addr initCmds)
    (showFrame f addr rotate (buffer.map fun _ => 0) phys) cnt

/-- `SH1107.__init__`: logical dimensions per orientation, a zeroed logical
buffer of `pages * width` bytes, a zeroed 16*64-byte physical buffer when
rotating, then `init_display`. -/
def construct (f : Nat → Bool) (addr : Nat) (rotate : Bool) :
    Nat × List Ev × Bool :=
  let w : Nat := if rotate then 128 else 64
  let h : Nat := if rotate then 64 else 128
  initDisplay f addr rotate (List.replicate (h / 8 * w) 0)
    (List.replicate (16 * 64) 0) 0

/-- The fault-free bus. -/
def noFail : Nat → Bool := fun _ => false

/-- A bus whose `k`-th transaction fails and all others succeed. -/
def failOnly (k : Nat) : Nat → Bool := fun n => n == k

/-- A bus whose `k1`-th and `k2`-th transactions fail. -/
def failTwo (k1 k2 : Nat) : Nat → Bool := fun n => n == k1 || n == k2

/-- The expected event sequence of a fault-free `write_data` call, phrased
by the spec's words: one `0x40`-prefixed transaction per 16-byte chunk,
each followed by the 50 microsecond delay. -/
def dataTrace (addr : Nat) (d : List Nat) : List Ev :=
  (chunks d).flatMap fun ch => [Ev.wr addr (0x40 :: ch), Ev.slUs 50]

/-- The expected event sequence of one fault-free page transfer, phrased by
the spec's words: page address, column low, column high, the page's
64-byte slice, then the 100 microsecond page delay. -/
def pageTrace (addr : Nat) (buf : List Nat) (page : Nat) : List Ev :=
  Ev.wr addr [0x80, 0xB0 ||| page] :: Ev.wr addr [0x80, 0x00] ::
    Ev.wr addr [0x80, 0x10] ::
    dataTrace addr ((buf.drop (page * 64)).take 64) ++ [Ev.slUs 100]

/-- The events of the first `k` chunks of a `write_data` payload. -/
def dataPrefix (addr : Nat) (d : List Nat) (k : Nat) : List Ev :=
  ((chunks d).take k).flatMap fun ch => [Ev.wr addr (0x40 :: ch), Ev.slUs 50]

/-- The expected events of the retry path of one page (after the 10 ms
backoff): the three address commands and the data write, with no trailing
page delay. -/
def retryTrace (addr : Nat) (buf : List Nat) (page : Nat) : List Ev :=
  Ev.wr addr [0x80, 0xB0 ||| page] :: Ev.wr addr [0x80, 0x00] ::
    Ev.wr addr [0x80, 0x10] :: dataTrace addr ((buf.drop (page * 64)).take 64)

/-- The successful prefix of a page attempt that fails at its `j`-th
transaction (of 7): the first `min j 3` address commands, then complete
chunks. -/
def attemptPrefix (addr : Nat) (buf : List Nat) (page j : Nat) : List Ev :=
  ([Ev.wr addr [0x80, 0xB0 ||| page], Ev.wr addr [0x80, 0x00],
    Ev.wr addr [0x80, 0x10]].take j)
    ++ dataPrefix addr ((buf.drop (page * 64)).take 64) (j - 3)

/-- The expected full construction trace: 21 `[0x80, cmd]` writes, then one
full-frame transfer of the cleared (all-zero) active buffer. -/
def initTrace (addr : Nat) : List Ev :=
  (initCmds.map fun v => Ev.wr addr [0x80, v]) ++
    (List.range 16).flatMap (pageTrace addr (List.replicate 1024 0))

/-- Modelled from the spec: the external pixel primitive surface
(`framebuf.FrameBuffer`, mode MONO_VLSB).  The logical buffer is
`height/8` pages of `width` bytes; pixel `(x, y)` is bit `y % 8` of byte
`(y/8)*width + x` (bit 0 is the topmost row of the 8-row group);
coordinates outside `[0,width) × [0,height)` are silently ignored; color 0
clears the bit, any other color sets it. -/
def setPixelB (w h : Nat) (buf : List Nat) (x y : Int) (c : Nat) : List Nat :=
  if 0 ≤ x ∧ x < w ∧ 0 ≤ y ∧ y < h then
    let idx := y.toNat / 8 * w + x.toNat
    let byte := buf.getD idx 0
    buf.set idx
      (if c = 0 then byte &&& (0xFF ^^^ 1 <<< (y.toNat % 8))
       else byte ||| 1 <<< (y.toNat % 8))
  else buf

/-- Reading pixel `(x, y)` from a MONO_VLSB buffer of width `w`. -/
def getPixelB (w : Nat) (buf : List Nat) (x y : Nat) : Bool :=
  (buf.getD (y / 8 * w + x) 0).testBit (y % 8)

/-- The buffer effect of one drawing command on the primitive surface. -/
def applyCmd (w h : Nat) (buf : List Nat) : Cmd → List Nat
  | .px x y c => setPixelB w h buf x y c
  | .hl x y len c =>
    (List.range len.toNat).foldl
      (fun b (i : Nat) => setPixelB w h b (x + (i : Int)) y c) buf
  | .ln x0 y0 x1 y1 c =>
    (linePts x0 y0 x1 y1).foldl (fun b q => setPixelB w h b q.1 q.2 c) buf

/-- The buffer effect of a command list, in order. -/
def applyCmds (w h : Nat) (cmds : List Cmd) (buf : List Nat) : List Nat :=
  cmds.foldl (fun b cmd => applyCmd w h b cmd) buf

/-- The vertex sort of `SH1107.triangle` with `f=True`: the three pairwise
conditional swaps `(0,1)`, `(1,2)`, `(0,1)`, each on strict `y` order. -/
def sort3 (v0 v1 v2 : Int × Int) : (Int × Int) × (Int × Int) × (Int × Int) :=
  let p1 := if v0.2 > v1.2 then (v1, v0) else (v0, v1)
  let p2 := if p1.2.2 > v2.2 then (v2, p1.2) else (p1.2, v2)
  let p3 := if p1.1.2 > p2.1.2 then (p2.1, p1.1) else (p1.1, p2.1)
  (p3.1, p3.2, p2.2)

/-- The span of one scanline of the filled triangle, vertices already
sorted ascending by `y`: in the upper part (`y <= y1`) `xa` interpolates
the edge `v0 -> v1`, in the lower part the edge `v1 -> v2`; `xb` always
interpolates the long edge `v0 -> v2`; an edge whose endpoints share a `y`
falls back to the first endpoint's `x` (no division); the two values are
put in order and drawn as one `hline` of length `xb - xa + 1`.  Integer
division is Python's floor division (`Int.fdiv`). -/
def triangleRow (v0 v1 v2 : Int × Int) (y : Int) (c : Nat) : Cmd :=
  let xa :=
    if y ≤ v1.2 then
      if v1.2 ≠ v0.2 then
        v0.1 + Int.fdiv ((v1.1 - v0.1) * (y - v0.2)) (v1.2 - v0.2)
      else v0.1
    else
      if v2.2 ≠ v1.2 then
        v1.1 + Int.fdiv ((v2.1 - v1.1) * (y - v1.2)) (v2.2 - v1.2)
      else v1.1
  let xb :=
    if v2.2 ≠ v0.2 then
      v0.1 + Int.fdiv ((v2.1 - v0.1) * (y - v0.2)) (v2.2 - v0.2)
    else v0.1
  Cmd.hl (min xa xb) y (max xa xb - min xa xb + 1) c

/-- The drawing commands issued by `SH1107.triangle`: for `f=True`, sort
the vertices by `y` and scan `y` from `y0` to `y2`; for `f=False`, the
three line segments in input order. -/
def triangleCmds (x0 y0 x1 y1 x2 y2 : Int) (c : Nat) (f : Bool) : List Cmd :=
  if f then
    let s := sort3 (x0, y0) (x1, y1) (x2, y2)
    (List.range (s.2.2.2 + 1 - s.1.2).toNat).map fun i =>
      triangleRow s.1 s.2.1 s.2.2 (s.1.2 + i) c
  else
    [Cmd.ln x0 y0 x1 y1 c, Cmd.ln x1 y1 x2 y2 c, Cmd.ln x2 y2 x0 y0 c]

/-- The half-width of one row of the filled ellipse,
`x = int(a * (1 - (y*y)/(b*b)) ** 0.5)`: with `b = 0` the division
`(y*y)/(b*b)` raises `ZeroDivisionError` (modelled as `none`).  The
floating-point value is modelled by exact integer arithmetic
(`Nat.sqrt (a^2*(b^2-y^2)) / |b|`, truncated toward zero as Python's
`int()`); the spec (section 9) notes the rounding mode of the original
float expression is implementation-defined. -/
def ellipseFillHW (a b y : Int) : Option Int :=
  if b = 0 then none
  else
    let m : Nat := Nat.sqrt (a * a * (b * b - y * y)).toNat / b.natAbs
    some (if a < 0 then -(m : Int) else (m : Int))

/-- The inclusive integer range `[lo, hi]` as a list (Python
`range(lo, hi + 1)`). -/
def intRange (lo hi : Int) : List Int :=
  (List.range (hi + 1 - lo).toNat).map fun i => lo + i

/-- The row loop of the filled ellipse: one centered `hline` per row `y`
in `range(-b, b + 1)`; a `ZeroDivisionError` in the half-width
computation aborts the whole operation before any row of the current
iteration is drawn. -/
def ellipseFillLoop (x0 y0 a b : Int) (c : Nat) :
    List Int → Option (List Cmd)
  | [] => some []
  | y :: ys =>
    match ellipseFillHW a b y with
    | none => none
    | some x =>
      match ellipseFillLoop x0 y0 a b c ys with
      | none => none
      | some rest => some (Cmd.hl (x0 - x) (y0 + y) (2 * x + 1) c :: rest)

/-- `SH1107.ellipse` with `f=True`. -/
def ellipseFillCmds (x0 y0 a b : Int) (c : Nat) : Option (List Cmd) :=
  ellipseFillLoop x0 y0 a b c (intRange (-b) b)

/-- Region 1 of the midpoint ellipse outline of `SH1107.ellipse`
(`f=False`): walk while `dx < dy`, advancing `x` (and `y` downward when
`d >= 0`); returns the plotted `(x, y)` heads and the final
`(x, y, dx, dy)` state.  The loop makes progress only when `b² ≥ 1` (when
`b = 0` it never runs), so it is embedded with explicit fuel large enough
for every reachable input. -/
def ellipseReg1 (a2 b2 : Int) :
    Nat → Int → Int → Int → Int → Int →
      List (Int × Int) × (Int × Int × Int × Int)
  | 0, x, y, _, dx, dy => ([], (x, y, dx, dy))
  | fuel + 1, x, y, d, dx, dy =>
    if dx < dy then
      if d < 0 then
        let r := ellipseReg1 a2 b2 fuel (x + 1) y (d + (dx + 2 * b2) + b2)
          (dx + 2 * b2) dy
        ((x, y) :: r.1, r.2)
      else
        let r := ellipseReg1 a2 b2 fuel (x + 1) (y - 1)
          (d + (dx + 2 * b2) - (dy - 2 * a2) + b2) (dx + 2 * b2)
          (dy - 2 * a2)
        ((x, y) :: r.1, r.2)
    else ([], (x, y, dx, dy))

/-- Region 2 of the midpoint ellipse outline: walk `y` down to 0.  The
decision value `D` is 4 times the source's floating-point `d` (the seed
`b2*(x+0.5)^2 + a2*(y-1)^2 - a2*b2` is a quarter-integer), so all
comparisons agree exactly. -/
def ellipseReg2 (a2 b2 : Int) (x y D dx dy : Int) : List (Int × Int) :=
  if h : 0 ≤ y then
    (x, y) ::
      (if D > 0 then
        ellipseReg2 a2 b2 x (y - 1) (D + 4 * (a2 - (dy - 2 * a2))) dx
          (dy - 2 * a2)
      else
        ellipseReg2 a2 b2 (x + 1) (y - 1)
          (D + 4 * ((dx + 2 * b2) - (dy - 2 * a2) + a2)) (dx + 2 * b2)
          (dy - 2 * a2))
  else []
termination_by (y + 1).toNat
decreasing_by
  all_goals omega

/-- `SH1107.ellipse` with `f=False`: both regions, each head plotted as
the four symmetric pixels in source order. -/
def ellipseOutlineCmds (x0 y0 a b : Int) (c : Nat) : List Cmd :=
  let a2 := a * a
  let b2 := b * b
  let r1 := ellipseReg1 a2 b2 ((2 * a2 * b).toNat + 1) 0 b
    (b2 - a2 * b + Int.fdiv a2 4) 0 (2 * a2 * b)
  let x1 := r1.2.1
  let y1 := r1.2.2.1
  let dx1 := r1.2.2.2.1
  let dy1 := r1.2.2.2.2
  let D2 := b2 * (2 * x1 + 1) * (2 * x1 + 1) + 4 * a2 * (y1 - 1) * (y1 - 1)
    - 4 * a2 * b2
  (r1.1 ++ ellipseReg2 a2 b2 x1 y1 D2 dx1 dy1).flatMap fun s =>
    [Cmd.px (x0 + s.1) (y0 + s.2) c, Cmd.px (x0 - s.1) (y0 + s.2) c,
     Cmd.px (x0 + s.1) (y0 - s.2) c, Cmd.px (x0 - s.1) (y0 - s.2) c]

/-- The drawing commands of `SH1107.ellipse`; for the filled variant a
`ZeroDivisionError` (only possible with `b = 0`) aborts before any span is
drawn, leaving the buffer untouched. -/
def ellipseCmds (x0 y0 a b : Int) (c : Nat) (f : Bool) : List Cmd :=
  if f then (ellipseFillCmds x0 y0 a b c).getD []
  else ellipseOutlineCmds x0 y0 a b c

/-- Vertical line: `framebuf.vline`, modelled from the spec's primitive
surface contract like `setPixelB`. -/
def vlineB (w h : Nat) (buf : List Nat) (x y l : Int) (c : Nat) : List Nat :=
  (List.range l.toNat).foldl
    (fun b (i : Nat) => setPixelB w h b x (y + (i : Int)) c) buf

/-- Rectangle fill: `framebuf.fill_rect`, modelled from the spec's
primitive surface contract as one clipped `hline` per covered row. -/
def fillRectB (w h : Nat) (buf : List Nat) (x y rw rh : Int) (c : Nat) :
    List Nat :=
  (List.range rh.toNat).foldl
    (fun b (i : Nat) => applyCmd w h b (Cmd.hl x (y + (i : Int)) rw c)) buf

/-- A public operation of the driver (the spec's section 6 list). -/
inductive DrawOp where
  | fill (c : Nat)
  | pixel (x y : Int) (c : Nat)
  | hline (x y l : Int) (c : Nat)
  | vline (x y l : Int) (c : Nat)
  | fillRect (x y rw rh : Int) (c : Nat)
  | circle (x0 y0 r : Int) (c : Nat) (f : Bool)
  | ellipse (x0 y0 a b : Int) (c : Nat) (f : Bool)
  | triangle (x0 y0 x1 y1 x2 y2 : Int) (c : Nat) (f : Bool)
  | showOp
  | contrast (v : Nat)
  | invert (b : Bool)
  | poweroff
  | poweron

/-- The in-memory state of one driver instance: the fixed orientation and
dimensions from `__init__`, the logical buffer, and the physical buffer
(present exactly when rotating). -/
structure Driver where
  rotate : Bool
  width : Nat
  height : Nat
  buffer : List Nat
  physical : Option (List Nat)

/-- The driver state right after `__init__` (which creates the zeroed
buffers and runs `init_display`, i.e. `fill(0)` and one `show`). -/
def mkDriver (rotate : Bool) : Driver :=
  if rotate then
    { rotate := true, width := 128, height := 64,
      buffer := List.replicate (64 / 8 * 128) 0,
      physical := some (rotateBuffer (List.replicate (64 / 8 * 128) 0)
        (List.replicate (16 * 64) 0)) }
  else
    { rotate := false, width := 64, height := 128,
      buffer := List.replicate (128 / 8 * 64) 0,
      physical := none }

/-- The buffer effect of one public operation.  Drawing operations mutate
the logical buffer through the primitive surface (the filled ellipse with
`b = 0` raises before touching any row, leaving the buffer unchanged);
`show` recomputes the physical buffer in place when rotating; the simple
commands touch no buffer. -/
def applyOp (d : Driver) : DrawOp → Driver
  | .fill c => { d with buffer := d.buffer.map fun _ => if c = 0 then 0 else 0xFF }
  | .pixel x y c => { d with buffer := setPixelB d.width d.height d.buffer x y c }
  | .hline x y l c =>
    { d with buffer := applyCmd d.width d.height d.buffer (Cmd.hl x y l c) }
  | .vline x y l c => { d with buffer := vlineB d.width d.height d.buffer x y l c }
  | .fillRect x y rw rh c =>
    { d with buffer := fillRectB d.width d.height d.buffer x y rw rh c }
  | .circle x0 y0 r c f =>
    { d with buffer := applyCmds d.width d.height (circleCmds x0 y0 r c f) d.buffer }
  | .ellipse x0 y0 a b c f =>
    { d with buffer := applyCmds d.width d.height (ellipseCmds x0 y0 a b c f) d.buffer }
  | .triangle x0 y0 x1 y1 x2 y2 c f =>
    { d with buffer :=
        applyCmds d.width d.height (triangleCmds x0 y0 x1 y1 x2 y2 c f) d.buffer }
  | .showOp =>
    if d.rotate then
      { d with physical := some (rotateBuffer d.buffer
          (d.physical.getD (List.replicate 1024 0))) }
    else d
  | .contrast _ => d
  | .invert _ => d
  | .poweroff => d
  | .poweron => d

/-- The claimed invariant: the logical buffer always holds
`width * height / 8 = 1024` bytes, and the physical buffer exists exactly
when the orientation is landscape and then holds exactly 1024 bytes. -/
def DriverInv (d : Driver) : Prop :=
  d.buffer.length = d.width * d.height / 8 ∧ d.buffer.length = 1024 ∧
    (match d.physical with
     | some pb => d.rotate = true ∧ pb.length = 1024
     | none => d.rotate = false)

/-- Loop invariant of the outline-circle loop: the error term tracks
`x² + y² + 2y - r²`, `y` stays nonnegative, `x` never exceeds `r`, and at
every loop head either `err ≤ 0` or (`y ≥ 1` and `err ≤ 2y`).  Together
these give `x² + y² ≤ r²` at every head. -/
def OInv (r x y err : Int) : Prop :=
  err = x ^ 2 + y ^ 2 + 2 * y - r ^ 2 ∧ 0 ≤ y ∧ x ≤ r ∧
    (err ≤ 0 ∨ (1 ≤ y ∧ err ≤ 2 * y))

/-- The facts holding at every emitted outline loop head. -/
def OHead (r : Int) (s : Int × Int) : Prop :=
  0 ≤ s.2 ∧ s.2 ≤ s.1 ∧ s.1 ≤ r ∧ s.1 ^ 2 + s.2 ^ 2 ≤ r ^ 2

/-- Loop invariant of the filled-circle loop: the error term tracks
`x² + y² - r² + 2(r - x)`, `x` drops by at most one per row (so
`r - y ≤ x ≤ r`), and the filled half-width always dominates the exact
disk: `r² + 1 ≤ (x+1)² + y²`. -/
def QInv (r x y err : Int) : Prop :=
  err = x ^ 2 + y ^ 2 - r ^ 2 + 2 * (r - x) ∧ 0 ≤ r ∧ 0 ≤ y ∧ x ≤ r ∧
    r - y ≤ x ∧ r ^ 2 + 1 ≤ (x + 1) ^ 2 + y ^ 2

/-- The facts holding at every emitted filled-circle row `(x, y)`. -/
def QHead (r : Int) (s : Int × Int) : Prop :=
  0 ≤ s.2 ∧ s.2 ≤ r ∧ r - s.2 ≤ s.1 ∧ r ^ 2 + 1 ≤ (s.1 + 1) ^ 2 + s.2 ^ 2

theorem pfSeq_ok {a b : Nat → Nat × List Ev × Bool} {cnt c1 : Nat}
    {e1 : List Ev} (ha : a cnt = (c1, e1, true)) :
    pfSeq a b cnt = ((b c1).1, e1 ++ (b c1).2.1, (b c1).2.2) := by
  simp [pfSeq, ha]

theorem pfSeq_fail {a b : Nat → Nat × List Ev × Bool} {cnt c1 : Nat}
    {e1 : List Ev} (ha : a cnt = (c1, e1, false)) :
    pfSeq a b cnt = (c1, e1, false) := by
  simp [pfSeq, ha]

theorem writeto_ok {f : Nat → Bool} {cnt : Nat} (hf : f cnt = false)
    (addr : Nat) (data : List Nat) :
    writeto f addr data cnt = (cnt + 1, [.wr addr data], true) := by
  simp [writeto, hf]

theorem writeto_fail {f : Nat → Bool} {cnt : Nat} (hf : f cnt = true)
    (addr : Nat) (data : List Nat) :
    writeto f addr data cnt = (cnt + 1, [], false) := by
  simp [writeto, hf]

theorem chunks_nil : chunks [] = [] := by
  rw [chunks]
  simp

theorem chunks_cons (l : List Nat) (h : l ≠ []) :
    chunks l = l.take 16 :: chunks (l.drop 16) := by
  rw [chunks, if_neg h]

theorem chunks_flatten (l : List Nat) : (chunks l).flatten = l := by
  rw [chunks]
  split_ifs with h
  · simp [h]
  · have ih := chunks_flatten (l.drop 16)
    simp [ih]
termination_by l.length
decreasing_by
  have : l.length ≠ 0 := fun hl => h (List.eq_nil_of_length_eq_zero hl)
  simp only [List.length_drop]
  omega

theorem chunks_length_le (l : List Nat) :
    ∀ ch ∈ chunks l, ch.length ≤ 16 := by
  rw [chunks]
  split_ifs with h
  · simp
  · have ih := chunks_length_le (l.drop 16)
    intro ch hch
    rcases List.mem_cons.1 hch with hc | hc
    · subst hc
      simp
    · exact ih ch hc
termination_by l.length
decreasing_by
  have : l.length ≠ 0 := fun hl => h (List.eq_nil_of_length_eq_zero hl)
  simp only [List.length_drop]
  omega

theorem chunks_length (l : List Nat) :
    (chunks l).length = (l.length + 15) / 16 := by
  rw [chunks]
  split_ifs with h
  · simp [h]
  · have ih := chunks_length (l.drop 16)
    have hl : l.length ≠ 0 := fun hl => h (List.eq_nil_of_length_eq_zero hl)
    simp only [List.length_cons, ih, List.length_drop]
    omega
termination_by l.length
decreasing_by
  have : l.length ≠ 0 := fun hl => h (List.eq_nil_of_length_eq_zero hl)
  simp only [List.length_drop]
  omega

theorem chunks_length_eq_16 (l : List Nat) (h : l.length % 16 = 0) :
    ∀ ch ∈ chunks l, ch.length = 16 := by
  rw [chunks]
  split_ifs with hn
  · simp
  · have hl : l.length ≠ 0 := fun hl => hn (List.eq_nil_of_length_eq_zero hl)
    have hd : (l.drop 16).length % 16 = 0 := by
      simp only [List.length_drop]
      omega
    have ih := chunks_length_eq_16 (l.drop 16) hd
    intro ch hch
    rcases List.mem_cons.1 hch with hc | hc
    · subst hc
      simp only [List.length_take]
      omega
    · exact ih ch hc
termination_by l.length
decreasing_by
  have : l.length ≠ 0 := fun hl => hn (List.eq_nil_of_length_eq_zero hl)
  simp only [List.length_drop]
  omega

/-- Behavior of `write_data` when no transaction in its window fails: one
transaction per chunk, in payload order, each prefixed with `0x40`. -/
theorem write_data_clean (f : Nat → Bool) (addr : Nat) (data : List Nat)
    (cnt : Nat)
    (hf : ∀ i, cnt ≤ i → i < cnt + (chunks data).length → f i = false) :
    write_data f addr data cnt =
      (cnt + (chunks data).length, dataTrace addr data, true) := by
  rw [write_data]
  split_ifs with h
  · simp [h, chunks_nil, dataTrace]
  · have hlen : chunks data = data.take 16 :: chunks (data.drop 16) :=
      chunks_cons data h
    have h0 : f cnt = false := by
      apply hf cnt le_rfl
      rw [hlen, List.length_cons]
      omega
    have hwin : ∀ i, cnt + 1 ≤ i →
        i < cnt + 1 + (chunks (data.drop 16)).length → f i = false := by
      intro i h1 h2
      apply hf i (by omega)
      rw [hlen, List.length_cons]
      omega
    have ih := write_data_clean f addr (data.drop 16) (cnt + 1) hwin
    rw [pfSeq_ok (writeto_ok h0 addr _), pfSeq_ok (by exact rfl : emit [.slUs 50] (cnt + 1) = (cnt + 1, [.slUs 50], true)), ih]
    simp only [dataTrace, hlen, List.flatMap_cons]
    simp [Nat.add_assoc, Nat.add_comm 1]
termination_by data.length
decreasing_by
  have : data.length ≠ 0 := fun hl => h (List.eq_nil_of_length_eq_zero hl)
  simp only [List.length_drop]
  omega

/-- C6: `write_data` splits every payload into consecutive chunks of at
most 16 bytes which cover the payload in order, each sent as one bus
transaction whose first byte is `0x40`; a 64-byte payload yields exactly 4
transactions of 16 payload bytes each. -/
theorem write_data_chunking (addr : Nat) (payload : List Nat) (cnt : Nat) :
    write_data noFail addr payload cnt =
        (cnt + (chunks payload).length, dataTrace addr payload, true)
      ∧ (chunks payload).flatten = payload
      ∧ (∀ ch ∈ chunks payload, ch.length ≤ 16)
      ∧ (payload.length = 64 →
          (chunks payload).length = 4 ∧ ∀ ch ∈ chunks payload, ch.length = 16) := by
  refine ⟨write_data_clean noFail addr payload cnt (fun i h1 h2 => rfl),
    chunks_flatten payload, chunks_length_le payload, fun h64 => ⟨?hl, ?hc⟩⟩
  · rw [chunks_length, h64]
  · exact chunks_length_eq_16 payload (by rw [h64])

theorem write_data_chunking_witness :
    write_data noFail 60 (List.replicate 64 7) 0 =
        (4, dataTrace 60 (List.replicate 64 7), true)
      ∧ (chunks (List.replicate 64 7)).flatten = List.replicate 64 7
      ∧ (chunks (List.replicate 64 7)).length = 4 := by
  have h := write_data_chunking 60 (List.replicate 64 7) 0
  have h4 := (h.2.2.2 (by simp)).1
  refine ⟨?ha, h.2.1, h4⟩
  rw [h.1, h4]

theorem write_cmd_ok {f : Nat → Bool} {cnt : Nat} (hf : f cnt = false)
    (addr cmd : Nat) :
    write_cmd f addr cmd cnt = (cnt + 1, [.wr addr [0x80, cmd]], true) := by
  rw [write_cmd, writeto_ok hf]

theorem write_cmd_fail {f : Nat → Bool} {cnt : Nat} (hf : f cnt = true)
    (addr cmd : Nat) :
    write_cmd f addr cmd cnt = (cnt + 1, [], false) := by
  rw [write_cmd, writeto_fail hf]

/-- Behavior of a command sequence none of whose transactions fails. -/
theorem cmdSeq_clean (f : Nat → Bool) (addr : Nat) (cs : List Nat)
    (cnt : Nat) (hf : ∀ i, cnt ≤ i → i < cnt + cs.length → f i = false) :
    cmdSeq f addr cs cnt =
      (cnt + cs.length, cs.map fun v => Ev.wr addr [0x80, v], true) := by
  induction cs generalizing cnt with
  | nil => simp [cmdSeq]
  | cons v rest ih =>
    have h0 : f cnt = false := hf cnt le_rfl (by simp)
    have ih2 := ih (cnt + 1) (fun i h1 h2 => hf i (by omega)
      (by simp only [List.length_cons]; omega))
    rw [cmdSeq, pfSeq_ok (write_cmd_ok h0 addr v), ih2]
    simp only [List.length_cons, List.map_cons, List.singleton_append,
      Prod.mk.injEq]
    refine ⟨by omega, ?u⟩
    simp

/-- Behavior of a command sequence whose `k`-th transaction fails: the
`OSError` propagates at once, after `k` successful transactions. -/
theorem cmdSeq_fail_at (f : Nat → Bool) (addr : Nat) (cs : List Nat)
    (cnt k : Nat) (hk : k < cs.length)
    (hf : ∀ i, cnt ≤ i → i < cnt + k → f i = false)
    (hfk : f (cnt + k) = true) :
    cmdSeq f addr cs cnt =
      (cnt + k + 1, (cs.take k).map fun v => Ev.wr addr [0x80, v], false) := by
  induction cs generalizing cnt k with
  | nil => simp at hk
  | cons v rest ih =>
    match k with
    | 0 =>
      rw [cmdSeq, pfSeq_fail (write_cmd_fail (by simpa using hfk) addr v)]
      simp
    | k + 1 =>
      have h0 : f cnt = false := hf cnt le_rfl (by omega)
      have ih2 := ih (cnt + 1) k (by simpa using hk)
        (fun i h1 h2 => hf i (by omega) (by omega)) (by
          have : cnt + 1 + k = cnt + (k + 1) := by omega
          rw [this]
          exact hfk)
      rw [cmdSeq, pfSeq_ok (write_cmd_ok h0 addr v), ih2]
      simp only [List.take_succ_cons, List.map_cons, List.singleton_append,
        Prod.mk.injEq]
      refine ⟨by omega, ?u⟩
      simp

/-- Behavior of `write_data` when its `k`-th chunk transaction fails: the
error propagates after the first `k` complete chunks. -/
theorem write_data_fail_at (f : Nat → Bool) (addr : Nat) (data : List Nat)
    (cnt k : Nat) (hk : k < (chunks data).length)
    (hf : ∀ i, cnt ≤ i → i < cnt + k → f i = false)
    (hfk : f (cnt + k) = true) :
    write_data f addr data cnt =
      (cnt + k + 1, dataPrefix addr data k, false) := by
  have hd : data ≠ [] := by
    intro hdn
    rw [hdn, chunks_nil] at hk
    simp at hk
  rw [write_data, if_neg hd]
  match k with
  | 0 =>
    rw [pfSeq_fail (writeto_fail (by simpa using hfk) addr _)]
    simp [dataPrefix]
  | k + 1 =>
    have h0 : f cnt = false := hf cnt le_rfl (by omega)
    have hk2 : k < (chunks (data.drop 16)).length := by
      rw [chunks_cons data hd] at hk
      simpa using hk
    have ih := write_data_fail_at f addr (data.drop 16) (cnt + 1) k hk2
      (fun i h1 h2 => hf i (by omega) (by omega)) (by
        have : cnt + 1 + k = cnt + (k + 1) := by omega
        rw [this]
        exact hfk)
    rw [pfSeq_ok (writeto_ok h0 addr _),
      pfSeq_ok (by exact rfl : emit [.slUs 50] (cnt + 1) = (cnt + 1, [.slUs 50], true)), ih]
    simp only [dataPrefix, chunks_cons data hd, List.take_succ_cons,
      List.flatMap_cons, Prod.mk.injEq]
    refine ⟨by omega, ?u⟩
    simp [dataPrefix]
termination_by data.length
decreasing_by
  have : data.length ≠ 0 := fun hl => hd (List.eq_nil_of_length_eq_zero hl)
  simp only [List.length_drop]
  omega

theorem pageAttempt_clean (f : Nat → Bool) (addr : Nat) (buf : List Nat)
    (page cnt : Nat) (hS : ((buf.drop (page * 64)).take 64).length = 64)
    (hf : ∀ i, cnt ≤ i → i < cnt + 7 → f i = false) :
    pageAttempt f addr buf page cnt =
      (cnt + 7, pageTrace addr buf page, true) := by
  have hch : (chunks ((buf.drop (page * 64)).take 64)).length = 4 := by
    rw [chunks_length, hS]
  have h0 : f cnt = false := hf cnt le_rfl (by omega)
  have h1 : f (cnt + 1) = false := hf _ (by omega) (by omega)
  have h2 : f (cnt + 1 + 1) = false := hf _ (by omega) (by omega)
  have hd : write_data f addr ((buf.drop (page * 64)).take 64) (cnt + 1 + 1 + 1)
      = (cnt + 7, dataTrace addr ((buf.drop (page * 64)).take 64), true) := by
    have hw := write_data_clean f addr ((buf.drop (page * 64)).take 64)
      (cnt + 1 + 1 + 1) (fun i ha hb => hf i (by omega) (by
        rw [hch] at hb
        omega))
    rw [hw, hch]
  rw [pageAttempt, pfSeq_ok (write_cmd_ok h0 addr _),
    pfSeq_ok (write_cmd_ok h1 addr _), pfSeq_ok (write_cmd_ok h2 addr _),
    pfSeq_ok hd]
  simp [emit, pageTrace]

theorem pageRetry_clean (f : Nat → Bool) (addr : Nat) (buf : List Nat)
    (page cnt : Nat) (hS : ((buf.drop (page * 64)).take 64).length = 64)
    (hf : ∀ i, cnt ≤ i → i < cnt + 7 → f i = false) :
    pageRetry f addr buf page cnt =
      (cnt + 7, retryTrace addr buf page, true) := by
  have hch : (chunks ((buf.drop (page * 64)).take 64)).length = 4 := by
    rw [chunks_length, hS]
  have h0 : f cnt = false := hf cnt le_rfl (by omega)
  have h1 : f (cnt + 1) = false := hf _ (by omega) (by omega)
  have h2 : f (cnt + 1 + 1) = false := hf _ (by omega) (by omega)
  have hd : write_data f addr ((buf.drop (page * 64)).take 64) (cnt + 1 + 1 + 1)
      = (cnt + 7, dataTrace addr ((buf.drop (page * 64)).take 64), true) := by
    have hw := write_data_clean f addr ((buf.drop (page * 64)).take 64)
      (cnt + 1 + 1 + 1) (fun i ha hb => hf i (by omega) (by
        rw [hch] at hb
        omega))
    rw [hw, hch]
  rw [pageRetry, pfSeq_ok (write_cmd_ok h0 addr _),
    pfSeq_ok (write_cmd_ok h1 addr _), pfSeq_ok (write_cmd_ok h2 addr _),
    hd]
  simp [retryTrace]

theorem pageAttempt_fail_at (f : Nat → Bool) (addr : Nat) (buf : List Nat)
    (page cnt j : Nat) (hS : ((buf.drop (page * 64)).take 64).length = 64)
    (hj : j < 7)
    (hf : ∀ i, cnt ≤ i → i < cnt + j → f i = false)
    (hfj : f (cnt + j) = true) :
    pageAttempt f addr buf page cnt =
      (cnt + j + 1, attemptPrefix addr buf page j, false) := by
  have hch : (chunks ((buf.drop (page * 64)).take 64)).length = 4 := by
    rw [chunks_length, hS]
  match j with
  | 0 =>
    rw [pageAttempt, pfSeq_fail (write_cmd_fail (by simpa using hfj) addr _)]
    simp [attemptPrefix, dataPrefix]
  | 1 =>
    have h0 : f cnt = false := hf cnt le_rfl (by omega)
    rw [pageAttempt, pfSeq_ok (write_cmd_ok h0 addr _),
      pfSeq_fail (write_cmd_fail (by simpa using hfj) addr _)]
    simp [attemptPrefix, dataPrefix]
  | 2 =>
    have h0 : f cnt = false := hf cnt le_rfl (by omega)
    have h1 : f (cnt + 1) = false := hf _ (by omega) (by omega)
    have h2 : f (cnt + 1 + 1) = true := by
      have e : cnt + 1 + 1 = cnt + 2 := by omega
      rw [e]
      exact hfj
    rw [pageAttempt, pfSeq_ok (write_cmd_ok h0 addr _),
      pfSeq_ok (write_cmd_ok h1 addr _),
      pfSeq_fail (write_cmd_fail h2 addr _)]
    simp [attemptPrefix, dataPrefix]
  | k + 3 =>
    have h0 : f cnt = false := hf cnt le_rfl (by omega)
    have h1 : f (cnt + 1) = false := hf _ (by omega) (by omega)
    have h2 : f (cnt + 1 + 1) = false := hf _ (by omega) (by omega)
    have hk4 : k < (chunks ((buf.drop (page * 64)).take 64)).length := by
      rw [hch]
      omega
    have hd := write_data_fail_at f addr ((buf.drop (page * 64)).take 64)
      (cnt + 1 + 1 + 1) k hk4
      (fun i ha hb => hf i (by omega) (by omega))
      (by
        have e : cnt + 1 + 1 + 1 + k = cnt + (k + 3) := by omega
        rw [e]
        exact hfj)
    rw [pageAttempt, pfSeq_ok (write_cmd_ok h0 addr _),
      pfSeq_ok (write_cmd_ok h1 addr _), pfSeq_ok (write_cmd_ok h2 addr _),
      pfSeq_fail hd]
    simp only [attemptPrefix, Prod.mk.injEq]
    refine ⟨by omega, ?e, trivial⟩
    have e2 : k + 3 - 3 = k := by omega
    rw [e2]
    simp

theorem pageRetry_fail_at (f : Nat → Bool) (addr : Nat) (buf : List Nat)
    (page cnt j : Nat) (hS : ((buf.drop (page * 64)).take 64).length = 64)
    (hj : j < 7)
    (hf : ∀ i, cnt ≤ i → i < cnt + j → f i = false)
    (hfj : f (cnt + j) = true) :
    pageRetry f addr buf page cnt =
      (cnt + j + 1, attemptPrefix addr buf page j, false) := by
  have hch : (chunks ((buf.drop (page * 64)).take 64)).length = 4 := by
    rw [chunks_length, hS]
  match j with
  | 0 =>
    rw [pageRetry, pfSeq_fail (write_cmd_fail (by simpa using hfj) addr _)]
    simp [attemptPrefix, dataPrefix]
  | 1 =>
    have h0 : f cnt = false := hf cnt le_rfl (by omega)
    rw [pageRetry, pfSeq_ok (write_cmd_ok h0 addr _),
      pfSeq_fail (write_cmd_fail (by simpa using hfj) addr _)]
    simp [attemptPrefix, dataPrefix]
  | 2 =>
    have h0 : f cnt = false := hf cnt le_rfl (by omega)
    have h1 : f (cnt + 1) = false := hf _ (by omega) (by omega)
    have h2 : f (cnt + 1 + 1) = true := by
      have e : cnt + 1 + 1 = cnt + 2 := by omega
      rw [e]
      exact hfj
    rw [pageRetry, pfSeq_ok (write_cmd_ok h0 addr _),
      pfSeq_ok (write_cmd_ok h1 addr _),
      pfSeq_fail (write_cmd_fail h2 addr _)]
    simp [attemptPrefix, dataPrefix]
  | k + 3 =>
    have h0 : f cnt = false := hf cnt le_rfl (by omega)
    have h1 : f (cnt + 1) = false := hf _ (by omega) (by omega)
    have h2 : f (cnt + 1 + 1) = false := hf _ (by omega) (by omega)
    have hk4 : k < (chunks ((buf.drop (page * 64)).take 64)).length := by
      rw [hch]
      omega
    have hd := write_data_fail_at f addr ((buf.drop (page * 64)).take 64)
      (cnt + 1 + 1 + 1) k hk4
      (fun i ha hb => hf i (by omega) (by omega))
      (by
        have e : cnt + 1 + 1 + 1 + k = cnt + (k + 3) := by omega
        rw [e]
        exact hfj)
    rw [pageRetry, pfSeq_ok (write_cmd_ok h0 addr _),
      pfSeq_ok (write_cmd_ok h1 addr _), pfSeq_ok (write_cmd_ok h2 addr _),
      hd]
    simp only [attemptPrefix, Prod.mk.injEq]
    refine ⟨by omega, ?e, trivial⟩
    have e2 : k + 3 - 3 = k := by omega
    rw [e2]
    simp

theorem showPage_clean (f : Nat → Bool) (addr : Nat) (buf : List Nat)
    (page cnt : Nat) (hS : ((buf.drop (page * 64)).take 64).length = 64)
    (hf : ∀ i, cnt ≤ i → i < cnt + 7 → f i = false) :
    showPage f addr buf page cnt = (cnt + 7, pageTrace addr buf page, true) := by
  rw [showPage, pageAttempt_clean f addr buf page cnt hS hf]
  simp

/-- A page whose first attempt fails at its `j`-th transaction but whose
retry runs clean: the 10 ms backoff, then one complete retry. -/
theorem showPage_retry_ok (f : Nat → Bool) (addr : Nat) (buf : List Nat)
    (page cnt j : Nat) (hS : ((buf.drop (page * 64)).take 64).length = 64)
    (hj : j < 7)
    (hfa : ∀ i, cnt ≤ i → i < cnt + j → f i = false)
    (hfj : f (cnt + j) = true)
    (hfr : ∀ i, cnt + j + 1 ≤ i → i < cnt + j + 8 → f i = false) :
    showPage f addr buf page cnt =
      (cnt + j + 8,
        attemptPrefix addr buf page j ++
          Ev.slMs 10 :: retryTrace addr buf page, true) := by
  have ha := pageAttempt_fail_at f addr buf page cnt j hS hj hfa hfj
  have hr := pageRetry_clean f addr buf page (cnt + j + 1) hS
    (fun i h1 h2 => hfr i h1 (by omega))
  rw [showPage, ha]
  simp only [Bool.false_eq_true, if_false, hr]

/-- A page whose first attempt fails at its `j`-th transaction and whose
retry fails again at its `j2`-th transaction: the error propagates. -/
theorem showPage_retry_fail (f : Nat → Bool) (addr : Nat) (buf : List Nat)
    (page cnt j j2 : Nat) (hS : ((buf.drop (page * 64)).take 64).length = 64)
    (hj : j < 7) (hj2 : j2 < 7)
    (hfa : ∀ i, cnt ≤ i → i < cnt + j → f i = false)
    (hfj : f (cnt + j) = true)
    (hfr : ∀ i, cnt + j + 1 ≤ i → i < cnt + j + 1 + j2 → f i = false)
    (hfj2 : f (cnt + j + 1 + j2) = true) :
    showPage f addr buf page cnt =
      (cnt + j + 1 + j2 + 1,
        attemptPrefix addr buf page j ++
          Ev.slMs 10 :: attemptPrefix addr buf page j2, false) := by
  have ha := pageAttempt_fail_at f addr buf page cnt j hS hj hfa hfj
  have hr := pageRetry_fail_at f addr buf page (cnt + j + 1) j2 hS hj2 hfr hfj2
  rw [showPage, ha]
  simp only [Bool.false_eq_true, if_false, hr]

theorem showPages_clean (f : Nat → Bool) (addr : Nat) (buf : List Nat)
    (ps : List Nat) (cnt : Nat)
    (hS : ∀ p ∈ ps, ((buf.drop (p * 64)).take 64).length = 64)
    (hf : ∀ i, cnt ≤ i → i < cnt + 7 * ps.length → f i = false) :
    showPages f addr buf ps cnt =
      (cnt + 7 * ps.length, ps.flatMap (pageTrace addr buf), true) := by
  induction ps generalizing cnt with
  | nil => simp [showPages]
  | cons p rest ih =>
    have hp := showPage_clean f addr buf p cnt (hS p (by simp))
      (fun i h1 h2 => hf i h1 (by simp only [List.length_cons]; omega))
    have ih2 := ih (cnt + 7) (fun q hq => hS q (by simp [hq]))
      (fun i h1 h2 => hf i (by omega) (by simp only [List.length_cons]; omega))
    rw [showPages, pfSeq_ok hp, ih2]
    simp only [List.length_cons, List.flatMap_cons, Prod.mk.injEq]
    exact ⟨by omega, trivial⟩

theorem pfSeq_assoc (a b c : Nat → Nat × List Ev × Bool) (cnt : Nat) :
    pfSeq (pfSeq a b) c cnt = pfSeq a (pfSeq b c) cnt := by
  by_cases ha : (a cnt).2.2 = true
  · by_cases hb : (b (a cnt).1).2.2 = true
    · simp [pfSeq, ha, hb]
    · simp [pfSeq, ha, hb]
  · simp [pfSeq, ha]

theorem showPages_append (f : Nat → Bool) (addr : Nat) (buf : List Nat)
    (ps1 ps2 : List Nat) (cnt : Nat) :
    showPages f addr buf (ps1 ++ ps2) cnt =
      pfSeq (showPages f addr buf ps1) (showPages f addr buf ps2) cnt := by
  induction ps1 generalizing cnt with
  | nil =>
    simp only [List.nil_append]
    rw [pfSeq]
    simp [showPages]
  | cons p rest ih =>
    have hcons : showPages f addr buf (p :: rest) =
        fun c => pfSeq (showPage f addr buf p) (showPages f addr buf rest) c :=
      funext fun c => by rw [showPages]
    have hih : showPages f addr buf (rest ++ ps2) =
        fun c => pfSeq (showPages f addr buf rest) (showPages f addr buf ps2) c :=
      funext ih
    rw [List.cons_append, showPages, hih, hcons]
    exact (pfSeq_assoc _ _ _ cnt).symm

theorem failOnly_ne {k i : Nat} (h : i ≠ k) : failOnly k i = false := by
  simp [failOnly, h]

theorem failOnly_self (k : Nat) : failOnly k k = true := by
  simp [failOnly]

theorem failTwo_ne {k1 k2 i : Nat} (h1 : i ≠ k1) (h2 : i ≠ k2) :
    failTwo k1 k2 i = false := by
  simp [failTwo, h1, h2]

theorem failTwo_fst (k1 k2 : Nat) : failTwo k1 k2 k1 = true := by
  simp [failTwo]

theorem failTwo_snd (k1 k2 : Nat) : failTwo k1 k2 k2 = true := by
  simp [failTwo]

theorem replicate_getD (n i : Nat) : (List.replicate n (0 : Nat)).getD i 0 = 0 := by
  rw [List.getD_eq_getElem?_getD, List.getElem?_replicate]
  split <;> rfl

theorem rotByte_zeros (n : Nat) (ph : List Nat) (p c : Nat) :
    rotByte (List.replicate n 0) ph p c = ph := by
  rw [rotByte]
  simp [replicate_getD]

/-- Rotating an all-zero logical buffer only clears the physical buffer:
every source byte is zero and is skipped. -/
theorem rotateBuffer_zeros (n : Nat) (ph : List Nat) :
    rotateBuffer (List.replicate n 0) ph = ph.map fun _ => 0 := by
  rw [rotateBuffer]
  have h1 : ∀ (L : List Nat) (start : List Nat) (p : Nat),
      L.foldl (fun ph2 c => rotByte (List.replicate n 0) ph2 p c) start
        = start := by
    intro L
    induction L with
    | nil => intro start p; rfl
    | cons c cs ihc =>
      intro start p
      rw [List.foldl_cons, rotByte_zeros, ihc]
  have h2 : ∀ (L : List Nat) (start : List Nat),
      L.foldl (fun ph p => (List.range 128).foldl
        (fun ph2 c => rotByte (List.replicate n 0) ph2 p c) ph) start
        = start := by
    intro L
    induction L with
    | nil => intro start; rfl
    | cons p ps ihp =>
      intro start
      rw [List.foldl_cons, h1, ihp]
  rw [h2]

theorem range16_split (p : Nat) (hp : p < 16) :
    List.range 16 = List.range p ++ p :: List.range' (p + 1) (15 - p) := by
  rw [List.range_eq_range', List.range_eq_range']
  have h1 : List.range' 0 p ++ List.range' (0 + p) (16 - p) =
      List.range' 0 (16 - p + p) := List.range'_append_1 0 p (16 - p)
  have h2 : 16 - p + p = 16 := by omega
  rw [h2] at h1
  rw [← h1]
  have h3 : 16 - p = (15 - p) + 1 := by omega
  rw [h3, List.range'_succ]
  simp

theorem slice_length_64 (buf : List Nat) (hb : buf.length = 1024)
    (p : Nat) (hp : p < 16) :
    ((buf.drop (p * 64)).take 64).length = 64 := by
  simp only [List.length_take, List.length_drop, hb]
  omega

/-- C7: construction issues the 21 initialization command writes in the
fixed order `initCmds` (display-off 0xAE, start-line 0xDC 0x00, contrast
0x81 0x2F, vertical addressing 0x20, segment-remap 0xA0, scan-direction
0xC0, mux 0xA8 0x7F, offset 0xD3 0x60, clock 0xD5 0x51, precharge 0xD9
0x22, VCOM 0xDB 0x35, entire-on 0xA4, normal 0xA6, display-on 0xAF), then
clears the buffer and performs one full-frame transfer of all 16 pages in
ascending order, each page preceded by `0xB0|page`, `0x00`, `0x10` and
followed by its 64 zero bytes. -/
theorem construct_init_sequence (addr : Nat) (rotate : Bool) :
    construct noFail addr rotate = (133, initTrace addr, true) := by
  have hlen : initCmds.length = 21 := rfl
  have hcmd : cmdSeq noFail addr initCmds 0 =
      (21, initCmds.map fun v => Ev.wr addr [0x80, v], true) := by
    have h := cmdSeq_clean noFail addr initCmds 0 (fun i h1 h2 => rfl)
    rw [h, hlen]
  have hS : ∀ p ∈ List.range 16,
      (((List.replicate 1024 (0 : Nat)).drop (p * 64)).take 64).length = 64 := by
    intro p hp
    rw [List.mem_range] at hp
    exact slice_length_64 _ (by simp) p hp
  have hpages := showPages_clean noFail addr (List.replicate 1024 0)
    (List.range 16) 21 hS (fun i h1 h2 => rfl)
  cases rotate with
  | true =>
    rw [construct]
    norm_num [initDisplay]
    rw [pfSeq_ok hcmd, showFrame]
    norm_num [rotateBuffer_zeros, List.map_replicate]
    rw [hpages]
    norm_num [initTrace, List.length_range]
  | false =>
    rw [construct]
    norm_num [initDisplay]
    rw [pfSeq_ok hcmd, showFrame]
    norm_num []
    rw [hpages]
    norm_num [initTrace, List.length_range]

/-- One forced failure at the `j`-th transaction of page `p`'s first
attempt, and no other failure: the whole 16-page transfer succeeds with
exactly that page retried. -/
theorem showPages16_one_retry (f : Nat → Bool) (addr : Nat) (buf : List Nat)
    (hb : buf.length = 1024) (cnt p j : Nat) (hp : p < 16) (hj : j < 7)
    (h1 : ∀ i, cnt ≤ i → i < cnt + 7 * p → f i = false)
    (h2 : ∀ i, cnt + 7 * p ≤ i → i < cnt + 7 * p + j → f i = false)
    (h3 : f (cnt + 7 * p + j) = true)
    (h4 : ∀ i, cnt + 7 * p + j + 1 ≤ i → i < cnt + 7 * p + j + 8 → f i = false)
    (h5 : ∀ i, cnt + 7 * p + j + 8 ≤ i →
      i < cnt + 7 * p + j + 8 + 7 * (15 - p) → f i = false) :
    showPages f addr buf (List.range 16) cnt =
      (cnt + 113 + j,
        (List.range p).flatMap (pageTrace addr buf) ++
          (attemptPrefix addr buf p j ++
            Ev.slMs 10 :: retryTrace addr buf p) ++
          (List.range' (p + 1) (15 - p)).flatMap (pageTrace addr buf),
        true) := by
  have hS1 : ∀ q ∈ List.range p,
      ((buf.drop (q * 64)).take 64).length = 64 := by
    intro q hq
    rw [List.mem_range] at hq
    exact slice_length_64 buf hb q (by omega)
  have hS3 : ∀ q ∈ List.range' (p + 1) (15 - p),
      ((buf.drop (q * 64)).take 64).length = 64 := by
    intro q hq
    rw [List.mem_range'_1] at hq
    exact slice_length_64 buf hb q (by omega)
  have hz1 : showPages f addr buf (List.range p) cnt =
      (cnt + 7 * p, (List.range p).flatMap (pageTrace addr buf), true) := by
    have h := showPages_clean f addr buf (List.range p) cnt hS1
      (fun i ha hb2 => h1 i ha (by rwa [List.length_range] at hb2))
    rwa [List.length_range] at h
  have hpg : showPage f addr buf p (cnt + 7 * p) =
      (cnt + 7 * p + j + 8,
        attemptPrefix addr buf p j ++ Ev.slMs 10 :: retryTrace addr buf p,
        true) :=
    showPage_retry_ok f addr buf p (cnt + 7 * p) j
      (slice_length_64 buf hb p hp) hj h2 h3 h4
  have hz3 : showPages f addr buf (List.range' (p + 1) (15 - p))
      (cnt + 7 * p + j + 8) =
      (cnt + 7 * p + j + 8 + 7 * (15 - p),
        (List.range' (p + 1) (15 - p)).flatMap (pageTrace addr buf), true) := by
    have h := showPages_clean f addr buf (List.range' (p + 1) (15 - p))
      (cnt + 7 * p + j + 8) hS3
      (fun i ha hb2 => h5 i ha (by rwa [List.length_range'] at hb2))
    rwa [List.length_range'] at h
  rw [range16_split p hp, showPages_append, pfSeq_ok hz1, showPages,
    pfSeq_ok hpg, hz3]
  simp only [Prod.mk.injEq]
  refine ⟨by omega, by simp, trivial⟩

/-- Forced failures at transaction `j` of page `p`'s first attempt and at
transaction `j2` of its retry: `show` fails. -/
theorem showPages16_two_failures (f : Nat → Bool) (addr : Nat)
    (buf : List Nat) (hb : buf.length = 1024) (cnt p j j2 : Nat)
    (hp : p < 16) (hj : j < 7) (hj2 : j2 < 7)
    (h1 : ∀ i, cnt ≤ i → i < cnt + 7 * p → f i = false)
    (h2 : ∀ i, cnt + 7 * p ≤ i → i < cnt + 7 * p + j → f i = false)
    (h3 : f (cnt + 7 * p + j) = true)
    (h4 : ∀ i, cnt + 7 * p + j + 1 ≤ i →
      i < cnt + 7 * p + j + 1 + j2 → f i = false)
    (h3b : f (cnt + 7 * p + j + 1 + j2) = true) :
    (showPages f addr buf (List.range 16) cnt).2.2 = false := by
  have hS1 : ∀ q ∈ List.range p,
      ((buf.drop (q * 64)).take 64).length = 64 := by
    intro q hq
    rw [List.mem_range] at hq
    exact slice_length_64 buf hb q (by omega)
  have hz1 : showPages f addr buf (List.range p) cnt =
      (cnt + 7 * p, (List.range p).flatMap (pageTrace addr buf), true) := by
    have h := showPages_clean f addr buf (List.range p) cnt hS1
      (fun i ha hb2 => h1 i ha (by rwa [List.length_range] at hb2))
    rwa [List.length_range] at h
  have hpg := showPage_retry_fail f addr buf p (cnt + 7 * p) j j2
    (slice_length_64 buf hb p hp) hj hj2 h2 h3 h4 h3b
  rw [range16_split p hp, showPages_append, pfSeq_ok hz1, showPages,
    pfSeq_fail hpg]

/-- C4: during `show`, a single transient `OSError` at the `j`-th
transaction of page `p`'s first attempt makes `show` wait 10 ms, retry that
page's three address commands plus 64-byte data write exactly once, and
continue to the next page: the whole call succeeds with exactly one retried
transaction sequence.  If the retry also fails (a second forced failure in
the retry window), `show` fails and the error propagates. -/
theorem show_page_retry_policy (addr : Nat) (buf phys : List Nat)
    (hb : buf.length = 1024) (p j : Nat) (hp : p < 16) (hj : j < 7) :
    showFrame (failOnly (7 * p + j)) addr false buf phys 0 =
        (113 + j,
          (List.range p).flatMap (pageTrace addr buf) ++
            (attemptPrefix addr buf p j ++
              Ev.slMs 10 :: retryTrace addr buf p) ++
            (List.range' (p + 1) (15 - p)).flatMap (pageTrace addr buf),
          true)
      ∧ ∀ j2, j2 < 7 →
        (showFrame (failTwo (7 * p + j) (7 * p + j + 1 + j2)) addr false buf
            phys 0).2.2 = false := by
  constructor
  · rw [showFrame]
    norm_num
    have h := showPages16_one_retry (failOnly (7 * p + j)) addr buf hb 0 p j
      hp hj
      (fun i ha hb2 => failOnly_ne (by omega))
      (fun i ha hb2 => failOnly_ne (by omega))
      (by
        have e : 0 + 7 * p + j = 7 * p + j := by omega
        rw [e]
        exact failOnly_self _)
      (fun i ha hb2 => failOnly_ne (by omega))
      (fun i ha hb2 => failOnly_ne (by omega))
    simpa using h
  · intro j2 hj2
    rw [showFrame]
    norm_num
    exact showPages16_two_failures (failTwo (7 * p + j) (7 * p + j + 1 + j2))
      addr buf hb 0 p j j2 hp hj hj2
      (fun i ha hb2 => failTwo_ne (by omega) (by omega))
      (fun i ha hb2 => failTwo_ne (by omega) (by omega))
      (by
        have e : 0 + 7 * p + j = 7 * p + j := by omega
        rw [e]
        exact failTwo_fst _ _)
      (fun i ha hb2 => failTwo_ne (by omega) (by omega))
      (by
        have e : 0 + 7 * p + j + 1 + j2 = 7 * p + j + 1 + j2 := by omega
        rw [e]
        exact failTwo_snd _ _)

theorem show_page_retry_policy_witness :
    (showFrame (failOnly (7 * 0 + 0)) 60 false (List.replicate 1024 0) [] 0).2.2
        = true
      ∧ (showFrame (failTwo (7 * 0 + 0) (7 * 0 + 0 + 1 + 0)) 60 false
          (List.replicate 1024 0) [] 0).2.2 = false := by
  have h := show_page_retry_policy 60 (List.replicate 1024 0) []
    (by simp) 0 0 (by norm_num) (by norm_num)
  exact ⟨by rw [h.1], h.2 0 (by norm_num)⟩

/-- C8 counterexample: with a single transient failure at call index 21
(the first transaction of the full-frame transfer inside `init_display`),
construction succeeds and a 10 ms retry backoff occurs: a transport error
during construction is neither fatal nor unretried. -/
theorem construct_retry_during_construction :
    (construct (failOnly 21) 60 true).2.2 = true
      ∧ Ev.slMs 10 ∈ (construct (failOnly 21) 60 true).2.1 := by
  have hcmd : cmdSeq (failOnly 21) 60 initCmds 0 =
      (21, initCmds.map fun v => Ev.wr 60 [0x80, v], true) := by
    have h := cmdSeq_clean (failOnly 21) 60 initCmds 0
      (fun i h1 h2 => failOnly_ne (by
        have : initCmds.length = 21 := rfl
        omega))
    rw [h]
    rfl
  have hshow := showPages16_one_retry (failOnly 21) 60
    (List.replicate 1024 0) (by simp) 21 0 0 (by norm_num) (by norm_num)
    (fun i ha hb2 => failOnly_ne (by omega))
    (fun i ha hb2 => failOnly_ne (by omega))
    (by
      have e : 21 + 7 * 0 + 0 = 21 := by norm_num
      rw [e]
      exact failOnly_self _)
    (fun i ha hb2 => failOnly_ne (by omega))
    (fun i ha hb2 => failOnly_ne (by omega))
  have hC : construct (failOnly 21) 60 true =
      (134 + 0,
        (initCmds.map fun v => Ev.wr 60 [0x80, v]) ++
          ((List.range 0).flatMap (pageTrace 60 (List.replicate 1024 0)) ++
            (attemptPrefix 60 (List.replicate 1024 0) 0 0 ++
              Ev.slMs 10 :: retryTrace 60 (List.replicate 1024 0) 0) ++
            (List.range' 1 15).flatMap (pageTrace 60 (List.replicate 1024 0))),
        true) := by
    rw [construct]
    norm_num [initDisplay]
    rw [pfSeq_ok hcmd, showFrame]
    norm_num [rotateBuffer_zeros, List.map_replicate]
    rw [hshow]
    simp
  rw [hC]
  refine ⟨rfl, ?m⟩
  simp

/-- C8 amended: a transport error during the initialization command
sequence itself (one of the 21 command writes) is fatal: it propagates at
once after the preceding successful commands, with no retry; errors during
the trailing full-frame transfer instead follow the show retry policy. -/
theorem construct_cmd_error_fatal (addr : Nat) (rotate : Bool) (k : Nat)
    (hk : k < 21) :
    construct (failOnly k) addr rotate =
      (k + 1, (initCmds.take k).map fun v => Ev.wr addr [0x80, v], false) := by
  have hlen : initCmds.length = 21 := rfl
  have hcmd : cmdSeq (failOnly k) addr initCmds 0 =
      (k + 1, (initCmds.take k).map fun v => Ev.wr addr [0x80, v], false) := by
    have h := cmdSeq_fail_at (failOnly k) addr initCmds 0 k (by omega)
      (fun i h1 h2 => failOnly_ne (by omega))
      (by
        have e : 0 + k = k := by omega
        rw [e]
        exact failOnly_self _)
    simpa using h
  cases rotate with
  | true =>
    rw [construct]
    norm_num [initDisplay]
    rw [pfSeq_fail hcmd]
    simp [List.map_take]
  | false =>
    rw [construct]
    norm_num [initDisplay]
    rw [pfSeq_fail hcmd]
    simp [List.map_take]

theorem construct_cmd_error_fatal_witness :
    construct (failOnly 5) 60 true =
      (6, (initCmds.take 5).map fun v => Ev.wr 60 [0x80, v], false) :=
  construct_cmd_error_fatal 60 true 5 (by norm_num)

theorem getD_set_or (ph : List Nat) (i b j k : Nat) :
    (((ph.set i (ph.getD i 0 ||| 1 <<< b)).getD j 0).testBit k = true) ↔
      (((ph.getD j 0).testBit k = true) ∨
        (j = i ∧ k = b ∧ i < ph.length)) := by
  have hpow : (1 : Nat) <<< b = 2 ^ b := by
    rw [Nat.shiftLeft_eq, one_mul]
  by_cases hj : j = i
  · subst hj
    by_cases hlt : j < ph.length
    · rw [List.getD_eq_getElem?_getD, List.getElem?_set_self hlt]
      simp only [Option.getD_some, Nat.testBit_or, hpow, Nat.testBit_two_pow]
      rw [List.getD_eq_getElem?_getD]
      by_cases hkb : k = b
      · subst hkb
        simp [hlt]
      · simp [Ne.symm hkb, hkb]
    · rw [List.set_eq_of_length_le (by omega)]
      constructor
      · intro h
        exact Or.inl h
      · intro h
        rcases h with h | ⟨_, _, h⟩
        · exact h
        · omega
  · rw [List.getD_eq_getElem?_getD, List.getElem?_set_ne (fun he => hj he.symm),
      ← List.getD_eq_getElem?_getD]
    constructor
    · intro h
      exact Or.inl h
    · intro h
      rcases h with h | ⟨h, _, _⟩
      · exact h
      · exact absurd h hj

theorem rotBit_length (buf ph : List Nat) (p c b : Nat) :
    (rotBit buf ph p c b).length = ph.length := by
  rw [rotBit]
  split <;> simp

theorem rotBit_spec (buf ph : List Nat) (p c b j k : Nat)
    (hp : p < 8) (hc : c < 128) (hb : b < 8) (hph : ph.length = 1024) :
    (((rotBit buf ph p c b).getD j 0).testBit k = true) ↔
      (((ph.getD j 0).testBit k = true) ∨
        ((buf.getD (p * 128 + c) 0).testBit b = true ∧
          j = (127 - c) / 8 * 64 + (p * 8 + b) ∧ k = (127 - c) % 8)) := by
  rw [rotBit]
  split_ifs with hsrc
  · rw [getD_set_or]
    constructor
    · intro h
      rcases h with h | ⟨hj, hk, _⟩
      · exact Or.inl h
      · exact Or.inr ⟨hsrc, hj, hk⟩
    · intro h
      rcases h with h | ⟨_, hj, hk⟩
      · exact Or.inl h
      · refine Or.inr ⟨hj, hk, ?hlt⟩
        rw [hph]
        omega
  · constructor
    · intro h
      exact Or.inl h
    · intro h
      rcases h with h | ⟨hs, _, _⟩
      · exact h
      · exact absurd hs (by simpa using hsrc)

theorem rotBits_length (buf ph : List Nat) (p c : Nat) (L : List Nat) :
    (L.foldl (fun a b => rotBit buf a p c b) ph).length = ph.length := by
  induction L generalizing ph with
  | nil => rfl
  | cons b bs ih =>
    rw [List.foldl_cons, ih, rotBit_length]

theorem rotBits_spec (buf ph : List Nat) (p c : Nat) (L : List Nat)
    (j k : Nat) (hp : p < 8) (hc : c < 128) (hL : ∀ b ∈ L, b < 8)
    (hph : ph.length = 1024) :
    (((L.foldl (fun a b => rotBit buf a p c b) ph).getD j 0).testBit k
        = true) ↔
      (((ph.getD j 0).testBit k = true) ∨
        ∃ b ∈ L, (buf.getD (p * 128 + c) 0).testBit b = true ∧
          j = (127 - c) / 8 * 64 + (p * 8 + b) ∧ k = (127 - c) % 8) := by
  induction L generalizing ph with
  | nil => simp
  | cons b bs ih =>
    rw [List.foldl_cons,
      ih (rotBit buf ph p c b) (fun q hq => hL q (by simp [hq]))
        (by rw [rotBit_length, hph]),
      rotBit_spec buf ph p c b j k hp hc (hL b (by simp)) hph]
    constructor
    · intro h
      rcases h with (h | h) | ⟨q, hq, hrest⟩
      · exact Or.inl h
      · exact Or.inr ⟨b, by simp, h⟩
      · exact Or.inr ⟨q, by simp [hq], hrest⟩
    · intro h
      rcases h with h | ⟨q, hq, hrest⟩
      · exact Or.inl (Or.inl h)
      · rcases List.mem_cons.1 hq with hq | hq
        · subst hq
          exact Or.inl (Or.inr hrest)
        · exact Or.inr ⟨q, hq, hrest⟩

theorem rotByte_length (buf ph : List Nat) (p c : Nat) :
    (rotByte buf ph p c).length = ph.length := by
  rw [rotByte]
  split
  · rw [rotBits_length]
  · rfl

theorem rotByte_spec (buf ph : List Nat) (p c j k : Nat)
    (hp : p < 8) (hc : c < 128) (hph : ph.length = 1024) :
    (((rotByte buf ph p c).getD j 0).testBit k = true) ↔
      (((ph.getD j 0).testBit k = true) ∨
        ∃ b, b < 8 ∧ (buf.getD (p * 128 + c) 0).testBit b = true ∧
          j = (127 - c) / 8 * 64 + (p * 8 + b) ∧ k = (127 - c) % 8) := by
  rw [rotByte]
  split_ifs with hz
  · rw [rotBits_spec buf ph p c (List.range 8) j k hp hc
      (fun b hb => List.mem_range.1 hb) hph]
    constructor
    · intro h
      rcases h with h | ⟨b, hb, hrest⟩
      · exact Or.inl h
      · exact Or.inr ⟨b, List.mem_range.1 hb, hrest⟩
    · intro h
      rcases h with h | ⟨b, hb, hrest⟩
      · exact Or.inl h
      · exact Or.inr ⟨b, List.mem_range.2 hb, hrest⟩
  · have hz0 : buf.getD (p * 128 + c) 0 = 0 := by simpa using hz
    constructor
    · intro h
      exact Or.inl h
    · intro h
      rcases h with h | ⟨b, _, hs, _⟩
      · exact h
      · rw [hz0] at hs
        simp at hs

theorem rotRow_length (buf ph : List Nat) (p : Nat) (C : List Nat) :
    (C.foldl (fun a c => rotByte buf a p c) ph).length = ph.length := by
  induction C generalizing ph with
  | nil => rfl
  | cons c cs ih =>
    rw [List.foldl_cons, ih, rotByte_length]

theorem rotRow_spec (buf ph : List Nat) (p : Nat) (C : List Nat)
    (j k : Nat) (hp : p < 8) (hC : ∀ c ∈ C, c < 128) (hph : ph.length = 1024) :
    (((C.foldl (fun a c => rotByte buf a p c) ph).getD j 0).testBit k
        = true) ↔
      (((ph.getD j 0).testBit k = true) ∨
        ∃ c ∈ C, ∃ b, b < 8 ∧
          (buf.getD (p * 128 + c) 0).testBit b = true ∧
          j = (127 - c) / 8 * 64 + (p * 8 + b) ∧ k = (127 - c) % 8) := by
  induction C generalizing ph with
  | nil => simp
  | cons c cs ih =>
    rw [List.foldl_cons,
      ih (rotByte buf ph p c) (fun q hq => hC q (by simp [hq]))
        (by rw [rotByte_length, hph]),
      rotByte_spec buf ph p c j k hp (hC c (by simp)) hph]
    constructor
    · intro h
      rcases h with (h | h) | ⟨q, hq, hrest⟩
      · exact Or.inl h
      · exact Or.inr ⟨c, by simp, h⟩
      · exact Or.inr ⟨q, by simp [hq], hrest⟩
    · intro h
      rcases h with h | ⟨q, hq, hrest⟩
      · exact Or.inl (Or.inl h)
      · rcases List.mem_cons.1 hq with hq | hq
        · subst hq
          exact Or.inl (Or.inr hrest)
        · exact Or.inr ⟨q, hq, hrest⟩

theorem rotAll_spec (buf ph : List Nat) (P : List Nat) (j k : Nat)
    (hP : ∀ p ∈ P, p < 8) (hph : ph.length = 1024) :
    ((((P.foldl (fun a p => (List.range 128).foldl
          (fun a2 c => rotByte buf a2 p c) a) ph)).getD j 0).testBit k
        = true) ↔
      (((ph.getD j 0).testBit k = true) ∨
        ∃ p ∈ P, ∃ c, c < 128 ∧ ∃ b, b < 8 ∧
          (buf.getD (p * 128 + c) 0).testBit b = true ∧
          j = (127 - c) / 8 * 64 + (p * 8 + b) ∧ k = (127 - c) % 8) := by
  induction P generalizing ph with
  | nil => simp
  | cons p ps ih =>
    rw [List.foldl_cons,
      ih ((List.range 128).foldl (fun a2 c => rotByte buf a2 p c) ph)
        (fun q hq => hP q (by simp [hq]))
        (by rw [rotRow_length, hph]),
      rotRow_spec buf ph p (List.range 128) j k (hP p (by simp))
        (fun c hc => List.mem_range.1 hc) hph]
    constructor
    · intro h
      rcases h with (h | ⟨c, hc, hrest⟩) | ⟨q, hq, hrest⟩
      · exact Or.inl h
      · exact Or.inr ⟨p, by simp, c, List.mem_range.1 hc, hrest⟩
      · exact Or.inr ⟨q, by simp [hq], hrest⟩
    · intro h
      rcases h with h | ⟨q, hq, hrest⟩
      · exact Or.inl (Or.inl h)
      · rcases List.mem_cons.1 hq with hq | hq
        · subst hq
          obtain ⟨c, hc, hrest⟩ := hrest
          exact Or.inl (Or.inr ⟨c, List.mem_range.2 hc, hrest⟩)
        · exact Or.inr ⟨q, hq, hrest⟩

theorem map_zero_getD (ph : List Nat) (j : Nat) :
    ((ph.map fun _ => (0 : Nat)).getD j 0) = 0 := by
  rw [List.getD_eq_getElem?_getD, List.getElem?_map]
  cases ph[j]? <;> rfl

/-- C1: for a 1024-byte physical buffer, `_rotate_buffer` sets exactly the
rotated bits: bit `db` of physical byte `dp*64 + dx` is set in the result
iff the logical pixel `(x, y) = (127 - (8*dp + db), dx)` is set, i.e. bit
`y % 8` of logical byte `(y/8)*128 + x` is set.  Equivalently, each set
logical bit at page `p`, byte `c`, bit `b` (pixel `x = c`, `y = 8p + b`)
lands exactly at `dst_x = y`, `dst_y = 127 - x`, physical byte
`(dst_y/8)*64 + dst_x`, bit `dst_y % 8`, and no other physical bit is
set. -/
theorem rotate_buffer_correct (buf phys : List Nat)
    (hph : phys.length = 1024) (dp dx db : Nat)
    (hdp : dp < 16) (hdx : dx < 64) (hdb : db < 8) :
    (((rotateBuffer buf phys).getD (dp * 64 + dx) 0).testBit db = true) ↔
      ((buf.getD (dx / 8 * 128 + (127 - (8 * dp + db))) 0).testBit (dx % 8)
        = true) := by
  rw [rotateBuffer,
    rotAll_spec buf (phys.map fun _ => 0) (List.range 8) (dp * 64 + dx) db
      (fun p hp => List.mem_range.1 hp) (by rw [List.length_map, hph])]
  rw [map_zero_getD]
  simp only [Nat.zero_testBit, Bool.false_eq_true, false_or]
  constructor
  · rintro ⟨p, hp, c, hc, b, hb, hs, hj, hk⟩
    rw [List.mem_range] at hp
    have hpc : p = dx / 8 ∧ b = dx % 8 ∧ c = 127 - (8 * dp + db) := by
      constructor
      · omega
      · constructor <;> omega
    obtain ⟨hp2, hb2, hc2⟩ := hpc
    rw [hp2, hc2] at hs
    rw [hb2] at hs
    exact hs
  · intro hs
    refine ⟨dx / 8, List.mem_range.2 (by omega), 127 - (8 * dp + db),
      by omega, dx % 8, by omega, hs, by omega, by omega⟩

theorem rotate_buffer_correct_witness :
    ((rotateBuffer (1 :: List.replicate 1023 0)
        (List.replicate 1024 0)).getD (15 * 64 + 0) 0).testBit 7 = true := by
  have h := rotate_buffer_correct (1 :: List.replicate 1023 0)
    (List.replicate 1024 0) (by simp) 15 0 7 (by norm_num) (by norm_num)
    (by norm_num)
  exact h.mpr (by decide)

/-- C2 (code evaluated at the failing input): `triangle(0,0, 4,0, 0,4,
c=1, f=True)` on a cleared landscape buffer leaves pixel `(4, 0)` clear
even though `4 + 0 <= 4`: with the flat-top edge `y0 == y1` both
interpolants of scanline `y = 0` fall back to `x0 = 0`, so the row
degenerates to the single pixel `(0, 0)` instead of spanning `x = 0..4`.
Pixels `(0, 0)` and `(4, 4)` behave as the claim states. -/
theorem triangle_fill_flat_top_gap :
    getPixelB 128 (applyCmds 128 64 (triangleCmds 0 0 4 0 0 4 1 true)
        (List.replicate 1024 0)) 4 0 = false
      ∧ getPixelB 128 (applyCmds 128 64 (triangleCmds 0 0 4 0 0 4 1 true)
          (List.replicate 1024 0)) 0 0 = true
      ∧ getPixelB 128 (applyCmds 128 64 (triangleCmds 0 0 4 0 0 4 1 true)
          (List.replicate 1024 0)) 4 4 = false := by
  refine ⟨by decide, by decide, by decide⟩

/-- C3 (code evaluated at the failing input): the filled ellipse with
`b = 0` evaluates `(y*y)/(b*b)` at its first row `y = 0` and raises
`ZeroDivisionError` — the drawing operation fails, contradicting the
claim that every drawing operation completes for all integer arguments
including zero radii. -/
theorem ellipse_fill_zero_b_raises : ellipseFillCmds 0 0 1 0 1 = none := rfl

theorem setPixelB_length (w h : Nat) (buf : List Nat) (x y : Int) (c : Nat) :
    (setPixelB w h buf x y c).length = buf.length := by
  rw [setPixelB]
  split <;> simp

theorem applyCmd_length (w h : Nat) (buf : List Nat) (cmd : Cmd) :
    (applyCmd w h buf cmd).length = buf.length := by
  have hfold : ∀ (L : List (Int × Int)) (b : List Nat) (c : Nat),
      (L.foldl (fun b2 q => setPixelB w h b2 q.1 q.2 c) b).length
        = b.length := by
    intro L
    induction L with
    | nil => intro b c; rfl
    | cons q qs ih =>
      intro b c
      rw [List.foldl_cons, ih, setPixelB_length]
  cases cmd with
  | px x y c => exact setPixelB_length w h buf x y c
  | hl x y len c =>
    rw [applyCmd]
    induction (List.range len.toNat) generalizing buf with
    | nil => rfl
    | cons i is ih =>
      rw [List.foldl_cons, ih, setPixelB_length]
  | ln x0 y0 x1 y1 c =>
    rw [applyCmd]
    exact hfold _ buf c

theorem applyCmds_length (w h : Nat) (cmds : List Cmd) (buf : List Nat) :
    (applyCmds w h cmds buf).length = buf.length := by
  induction cmds generalizing buf with
  | nil => rfl
  | cons cmd rest ih =>
    rw [applyCmds, List.foldl_cons]
    have h1 := ih (applyCmd w h buf cmd)
    rw [applyCmds] at h1
    rw [h1, applyCmd_length]

theorem vlineB_length (w h : Nat) (buf : List Nat) (x y l : Int) (c : Nat) :
    (vlineB w h buf x y l c).length = buf.length := by
  rw [vlineB]
  induction (List.range l.toNat) generalizing buf with
  | nil => rfl
  | cons i is ih =>
    rw [List.foldl_cons, ih, setPixelB_length]

theorem fillRectB_length (w h : Nat) (buf : List Nat) (x y rw2 rh : Int)
    (c : Nat) :
    (fillRectB w h buf x y rw2 rh c).length = buf.length := by
  rw [fillRectB]
  induction (List.range rh.toNat) generalizing buf with
  | nil => rfl
  | cons i is ih =>
    rw [List.foldl_cons, ih, applyCmd_length]

theorem rotateBuffer_length (buf phys : List Nat) :
    (rotateBuffer buf phys).length = phys.length := by
  rw [rotateBuffer]
  have h2 : ∀ (P : List Nat) (start : List Nat),
      (P.foldl (fun a p => (List.range 128).foldl
        (fun a2 c => rotByte buf a2 p c) a) start).length = start.length := by
    intro P
    induction P with
    | nil => intro start; rfl
    | cons p ps ih =>
      intro start
      rw [List.foldl_cons, ih, rotRow_length]
  rw [h2, List.length_map]

/-- Preservation of the invariant under a pure logical-buffer update of
unchanged length. -/
theorem DriverInv_setBuffer (d : Driver) (nb : List Nat)
    (hlen : nb.length = d.buffer.length) (h : DriverInv d) :
    DriverInv { d with buffer := nb } := by
  obtain ⟨h1, h2, h3⟩ := h
  exact ⟨by rw [hlen]; exact h1, by rw [hlen]; exact h2, h3⟩

/-- C9: in both orientations the logical buffer holds
`width * height / 8 = 1024` bytes, the physical buffer exists iff the
orientation is landscape (`rotate = True`) and then always holds exactly
1024 bytes, and every sequence of public operations preserves all of
this. -/
theorem driver_buffer_invariant (rotate : Bool) (ops : List DrawOp) :
    DriverInv (ops.foldl applyOp (mkDriver rotate)) := by
  have hstep : ∀ (d : Driver) (op : DrawOp), DriverInv d →
      DriverInv (applyOp d op) := by
    intro d op hinv
    cases op with
    | fill c => exact DriverInv_setBuffer d _ (by simp) hinv
    | pixel x y c =>
      exact DriverInv_setBuffer d _ (by rw [setPixelB_length]) hinv
    | hline x y l c =>
      exact DriverInv_setBuffer d _ (by rw [applyCmd_length]) hinv
    | vline x y l c =>
      exact DriverInv_setBuffer d _ (by rw [vlineB_length]) hinv
    | fillRect x y rw2 rh c =>
      exact DriverInv_setBuffer d _ (by rw [fillRectB_length]) hinv
    | circle x0 y0 r c f =>
      exact DriverInv_setBuffer d _ (by rw [applyCmds_length]) hinv
    | ellipse x0 y0 a b c f =>
      exact DriverInv_setBuffer d _ (by rw [applyCmds_length]) hinv
    | triangle x0 y0 x1 y1 x2 y2 c f =>
      exact DriverInv_setBuffer d _ (by rw [applyCmds_length]) hinv
    | showOp =>
      obtain ⟨h1, h2, h3⟩ := hinv
      rw [applyOp]
      split_ifs with hr
      · refine ⟨h1, h2, hr, ?hl⟩
        rw [rotateBuffer_length]
        cases hphys : d.physical with
        | some pb =>
          rw [hphys] at h3
          simp [h3.2]
        | none =>
          rw [hphys] at h3
          rw [h3] at hr
          simp at hr
      · exact ⟨h1, h2, h3⟩
    | contrast v => exact hinv
    | invert b => exact hinv
    | poweroff => exact hinv
    | poweron => exact hinv
  have hinit : DriverInv (mkDriver rotate) := by
    cases rotate with
    | true =>
      refine ⟨by norm_num [mkDriver], by norm_num [mkDriver], ?hp⟩
      simp only [mkDriver, if_true]
      exact ⟨by trivial, by rw [rotateBuffer_length] ; simp⟩
    | false =>
      exact ⟨by norm_num [mkDriver], by norm_num [mkDriver], by simp [mkDriver]⟩
  have hfold : ∀ (ops2 : List DrawOp) (d : Driver), DriverInv d →
      DriverInv (ops2.foldl applyOp d) := by
    intro ops2
    induction ops2 with
    | nil => intro d hd; exact hd
    | cons op rest ih =>
      intro d hd
      rw [List.foldl_cons]
      exact ih _ (hstep d op hd)
  exact hfold ops (mkDriver rotate) hinit

theorem outlineInv_step (r x y err : Int) (h : OInv r x y err)
    (hg : y ≤ x) :
    OInv r (circleOutlineStep (x, y, err)).1
        (circleOutlineStep (x, y, err)).2.1
        (circleOutlineStep (x, y, err)).2.2
      ∨ ¬ ((circleOutlineStep (x, y, err)).2.1 ≤
          (circleOutlineStep (x, y, err)).1) := by
  obtain ⟨heq, hy, hxr, hdisj⟩ := h
  simp only [circleOutlineStep, circleOutlineStepA, circleOutlineStepB]
  by_cases hA : err ≤ 0
  · simp only [if_pos hA]
    by_cases hB : err + (2 * (y + 1) + 1) > 0
    · simp only [if_pos hB]
      by_cases hx1 : 1 ≤ x
      · left
        refine ⟨by linear_combination heq, by omega, by omega, ?d⟩
        right
        constructor
        · omega
        · nlinarith
      · right
        simp only [not_le]
        omega
    · simp only [if_neg hB]
      left
      exact ⟨by linear_combination heq, by omega, hxr, by omega⟩
  · have hBp : err > 0 := by omega
    simp only [if_neg hA]
    simp only [if_pos hBp]
    left
    refine ⟨by linear_combination heq, hy, by omega, ?d2⟩
    rcases hdisj with hd | ⟨hy1, hd⟩
    · omega
    · omega

theorem outlineHeads_bound (r x y err : Int) (hI : OInv r x y err) :
    ∀ s ∈ circleOutlineHeads x y err, OHead r s := by
  rw [circleOutlineHeads]
  split_ifs with hg
  · intro s hs
    rcases List.mem_cons.1 hs with hs | hs
    · subst hs
      obtain ⟨heq, hy, hxr, hdisj⟩ := hI
      refine ⟨hy, hg, hxr, ?hsq⟩
      have he2 : err ≤ 2 * y := by omega
      nlinarith
    · rcases outlineInv_step r x y err hI hg with hnext | hstop
      · exact outlineHeads_bound r _ _ _ hnext s hs
      · rw [circleOutlineHeads, dif_neg hstop] at hs
        simp at hs
  · intro s hs
    simp at hs
termination_by (x + 1 - y).toNat
decreasing_by
  have hd := circleOutlineStep_sub_lt x y err
  omega

theorem three_x_ge_two_r (x r : Int) (h0 : 0 ≤ x) (h1 : 0 ≤ r)
    (h2 : r ^ 2 - 1 ≤ 2 * x ^ 2) (h3 : r + 1 ≤ 2 * x) : 2 * r ≤ 3 * x := by
  by_contra hc
  push_neg at hc
  have h9 : (3 * x) ^ 2 ≤ (2 * r - 1) ^ 2 := by nlinarith
  nlinarith

theorem fillInv_step (r x y err : Int) (h : QInv r x y err) (hg : y ≤ r) :
    QInv r (circleFillStep (x, y, err)).1 (circleFillStep (x, y, err)).2.1
      (circleFillStep (x, y, err)).2.2 := by
  obtain ⟨heq, hr, hy, hxr, hxy, hP⟩ := h
  simp only [circleFillStep]
  by_cases hdec : 2 * (err + (1 + 2 * y)) > 2 * x + 1
  · simp only [if_pos hdec]
    refine ⟨by linear_combination heq, hr, by omega, by omega, by omega, ?hp⟩
    by_cases hyx : x ≤ y
    · nlinarith
    · have hstar : r ^ 2 + 3 * x - 2 * r + 1 ≤ x ^ 2 + (y + 1) ^ 2 := by
        nlinarith
      have hsq : r ^ 2 - 1 ≤ 2 * x ^ 2 := by nlinarith
      have h2x : r + 1 ≤ 2 * x := by omega
      have h3x : 2 * r ≤ 3 * x :=
        three_x_ge_two_r x r (by omega) hr hsq h2x
      nlinarith
  · simp only [if_neg hdec]
    exact ⟨by linear_combination heq, hr, by omega, hxr, by omega,
      by nlinarith⟩

theorem fillRows_bound (r x y err : Int) (hI : QInv r x y err) :
    ∀ s ∈ circleFillRows r x y err, QHead r s := by
  rw [circleFillRows]
  split_ifs with hg
  · intro s hs
    rcases List.mem_cons.1 hs with hs | hs
    · subst hs
      obtain ⟨heq, hr, hy, hxr, hxy, hP⟩ := hI
      exact ⟨hy, hg, hxy, hP⟩
    · exact fillRows_bound r _ _ _ (fillInv_step r x y err hI hg) s hs
  · intro s hs
    simp at hs
termination_by (r + 1 - y).toNat
decreasing_by
  have hd := circleFillStep_snd x y err
  omega

/-- The filled-circle loop visits every row index from its current `y` up
to `r`. -/
theorem fillRows_mem (r x y err t : Int) (hy : y ≤ t) (ht : t ≤ r) :
    ∃ X, (X, t) ∈ circleFillRows r x y err := by
  rw [circleFillRows, dif_pos (le_trans hy ht)]
  by_cases hyt : y = t
  · exact ⟨x, by simp [hyt]⟩
  · have hsnd := circleFillStep_snd x y err
    obtain ⟨X, hX⟩ := fillRows_mem r (circleFillStep (x, y, err)).1
      (circleFillStep (x, y, err)).2.1 (circleFillStep (x, y, err)).2.2 t
      (by omega) ht
    exact ⟨X, List.mem_cons_of_mem _ hX⟩
termination_by (r + 1 - y).toNat
decreasing_by
  have hd := circleFillStep_snd x y err
  omega

theorem coversB_hl (a b l : Int) (c : Nat) (p : Int × Int) :
    Cmd.coversB (Cmd.hl a b l c) p = true ↔
      (p.2 = b ∧ a ≤ p.1 ∧ p.1 < a + l) := by
  simp [Cmd.coversB, and_assoc]

/-- The filled circle covers the pixel columns `u ∈ [-X, X]` of both rows
`y0 ± t` whenever `u² + t² ≤ r²`. -/
theorem fill_covers_pm (x0 y0 r : Int) (c : Nat) (hr : 0 ≤ r) (u t : Int)
    (ht0 : 0 ≤ t) (htr : t ≤ r) (hut : u ^ 2 + t ^ 2 ≤ r ^ 2) :
    plottedBy (circleCmds x0 y0 r c true) (x0 + u, y0 + t) ∧
      plottedBy (circleCmds x0 y0 r c true) (x0 + u, y0 - t) := by
  obtain ⟨X, hmem⟩ := fillRows_mem r r 0 0 t ht0 htr
  have hQ : QHead r (X, t) := fillRows_bound r r 0 0
    ⟨by ring, hr, le_rfl, le_rfl, by omega, by nlinarith⟩ (X, t) hmem
  obtain ⟨hq1, hq2, hq3, hq4⟩ := hQ
  have hX0 : 0 ≤ X := by
    simp only at hq3
    omega
  have hu1 : u ≤ X := by nlinarith
  have hu2 : -X ≤ u := by nlinarith
  have hcov1 : plottedBy (circleCmds x0 y0 r c true) (x0 + u, y0 + t) := by
    refine ⟨Cmd.hl (x0 - X) (y0 + t) (2 * X + 1) c, ?hm, ?hc⟩
    · rw [circleCmds, if_pos rfl]
      exact List.mem_flatMap.2 ⟨(X, t), hmem, by simp⟩
    · rw [coversB_hl]
      exact ⟨rfl, by omega, by omega⟩
  refine ⟨hcov1, ?hneg⟩
  by_cases ht0e : t = 0
  · subst ht0e
    simpa using hcov1
  · refine ⟨Cmd.hl (x0 - X) (y0 - t) (2 * X + 1) c, ?hm2, ?hc2⟩
    · rw [circleCmds, if_pos rfl]
      refine List.mem_flatMap.2 ⟨(X, t), hmem, ?hin2⟩
      simp [ht0e]
    · rw [coversB_hl]
      exact ⟨rfl, by omega, by omega⟩

theorem coversB_px (a b : Int) (c : Nat) (p : Int × Int) :
    Cmd.coversB (Cmd.px a b c) p = true ↔ (p.1 = a ∧ p.2 = b) := by
  simp [Cmd.coversB]

/-- C5: for every center `(x0, y0)` and every radius `r ≥ 0`, the set of
pixels plotted by the circle outline algorithm is a subset of the set of
pixels plotted by the filled-circle algorithm for the same center and
radius. -/
theorem circle_outline_subset_filled (x0 y0 r : Int) (c : Nat) (hr : 0 ≤ r)
    (p : Int × Int) (hp : plottedBy (circleCmds x0 y0 r c false) p) :
    plottedBy (circleCmds x0 y0 r c true) p := by
  obtain ⟨pa, pb⟩ := p
  obtain ⟨cmd, hmem, hcov⟩ := hp
  rw [circleCmds, if_neg (by simp)] at hmem
  rw [List.mem_flatMap] at hmem
  obtain ⟨s, hs, hcmd⟩ := hmem
  have hO : OHead r s := outlineHeads_bound r r 0 0
    ⟨by ring, le_rfl, le_rfl, Or.inl le_rfl⟩ s hs
  obtain ⟨ho1, ho2, ho3, ho4⟩ := hO
  have ht1 : (0 : Int) ≤ s.1 := le_trans ho1 ho2
  have ht2 : s.2 ≤ r := le_trans ho2 ho3
  simp only [List.mem_cons, List.not_mem_nil, or_false] at hcmd
  rcases hcmd with rfl | rfl | rfl | rfl | rfl | rfl | rfl | rfl <;>
    rw [coversB_px] at hcov <;>
      obtain ⟨h1, h2⟩ := hcov
  · have hpe : ((pa, pb) : Int × Int) = (x0 + s.1, y0 + s.2) := by
      simp only [Prod.mk.injEq]
      simp only at h1 h2
      omega
    rw [hpe]
    exact (fill_covers_pm x0 y0 r c hr s.1 s.2 ho1 ht2 ho4).1
  · have hpe : ((pa, pb) : Int × Int) = (x0 + s.2, y0 + s.1) := by
      simp only [Prod.mk.injEq]
      simp only at h1 h2
      omega
    rw [hpe]
    exact (fill_covers_pm x0 y0 r c hr s.2 s.1 ht1 ho3 (by nlinarith)).1
  · have hpe : ((pa, pb) : Int × Int) = (x0 + -s.2, y0 + s.1) := by
      simp only [Prod.mk.injEq]
      simp only at h1 h2
      omega
    rw [hpe]
    exact (fill_covers_pm x0 y0 r c hr (-s.2) s.1 ht1 ho3 (by nlinarith)).1
  · have hpe : ((pa, pb) : Int × Int) = (x0 + -s.1, y0 + s.2) := by
      simp only [Prod.mk.injEq]
      simp only at h1 h2
      omega
    rw [hpe]
    exact (fill_covers_pm x0 y0 r c hr (-s.1) s.2 ho1 ht2 (by nlinarith)).1
  · have hpe : ((pa, pb) : Int × Int) = (x0 + -s.1, y0 - s.2) := by
      simp only [Prod.mk.injEq]
      simp only at h1 h2
      omega
    rw [hpe]
    exact (fill_covers_pm x0 y0 r c hr (-s.1) s.2 ho1 ht2 (by nlinarith)).2
  · have hpe : ((pa, pb) : Int × Int) = (x0 + -s.2, y0 - s.1) := by
      simp only [Prod.mk.injEq]
      simp only at h1 h2
      omega
    rw [hpe]
    exact (fill_covers_pm x0 y0 r c hr (-s.2) s.1 ht1 ho3 (by nlinarith)).2
  · have hpe : ((pa, pb) : Int × Int) = (x0 + s.2, y0 - s.1) := by
      simp only [Prod.mk.injEq]
      simp only at h1 h2
      omega
    rw [hpe]
    exact (fill_covers_pm x0 y0 r c hr s.2 s.1 ht1 ho3 (by nlinarith)).2
  · have hpe : ((pa, pb) : Int × Int) = (x0 + s.1, y0 - s.2) := by
      simp only [Prod.mk.injEq]
      simp only at h1 h2
      omega
    rw [hpe]
    exact (fill_covers_pm x0 y0 r c hr s.1 s.2 ho1 ht2 ho4).2

theorem circle_outline_subset_filled_witness :
    plottedBy (circleCmds 0 0 1 1 true) (1, 0) := by
  apply circle_outline_subset_filled 0 0 1 1 (by norm_num) (1, 0)
  refine ⟨Cmd.px (0 + 1) (0 + 0) 1, ?hm, ?hc⟩
  · rw [circleCmds, if_neg (by simp)]
    refine List.mem_flatMap.2 ⟨(1, 0), ?hh, by simp⟩
    rw [circleOutlineHeads, dif_pos (by norm_num)]
    exact List.mem_cons_self _ _
  · rw [coversB_px]
    norm_num

/-- C10: each iteration of the outline-circle loop strictly decreases
`x - y`, so the loop (which runs while `x >= y`) terminates and the embedded
outline-circle function `circleOutlineHeads` is total. -/
theorem circle_outline_loop_terminates (x y err : Int) :
    (circleOutlineStep (x, y, err)).1 - (circleOutlineStep (x, y, err)).2.1
      < x - y :=
  circleOutlineStep_sub_lt x y err

end SH1107
